import Mathlib

/-!
# Compiler_Program: a four-stage miniature compiler

Shallow embedding of the four programs of the repository

* `latexanaly.cpp`              (class `Lexer`),
* `Pareranaly.cpp`              (class `Parser` and the AST printer),
* `convertToReversePolish.cpp`  (the lowering stage: text parser and `generateCode`),
* `Target.cpp`                  (`convertToAssembly`),

followed by theorems about them.

A `std::string` is a `List Char`.  `std::isalpha`, `std::isdigit`, `std::isalnum` and
`std::isspace` are taken in the "C" locale.  `int` is 32 bits wide.  An abnormal end of a C++
function (an uncaught exception, a read through a null `unique_ptr`, `top()` of an empty
`std::stack`) is a value of `Fault`; so is running out of the recursion budget of a
definition that is recursive on a budget.
-/

namespace Compiler

/-- A `std::string`. -/
abbrev Str := List Char

/-- Abnormal outcomes of the C++ code. -/
inductive Fault where
  /-- `std::out_of_range` thrown by `std::stoi`. -/
  | outOfRange
  /-- `std::invalid_argument` thrown by `std::stoi`. -/
  | invalidArgument
  /-- `operator[]` of a `std::string` past its terminating position. -/
  | outOfBounds
  /-- A member call through a null `std::unique_ptr`. -/
  | nullDeref
  /-- `top()` or `pop()` of an empty `std::stack`. -/
  | stackUnderflow
  /-- The recursion budget of the embedding ran out (no C++ counterpart). -/
  | fuel
deriving DecidableEq, Repr

/-! ## C library helpers -/

def INT_MAX : Int := 2147483647

def INT_MIN : Int := -2147483648

/-- The function `std::isspace` in the "C" locale. -/
def isspace (c : Char) : Bool :=
  c = ' ' || c = '\t' || c = '\n' || c = '\x0b' || c = '\x0c' || c = '\r'

/-- The function `std::isalpha` in the "C" locale. -/
def isalpha (c : Char) : Bool := c.isAlpha

/-- The function `std::isdigit`. -/
def isdigit (c : Char) : Bool := c.isDigit

/-- The function `std::isalnum` in the "C" locale. -/
def isalnum (c : Char) : Bool := isalpha c || isdigit c

/-- Value of a run of decimal digits. -/
def digitsValue (ds : Str) : Nat :=
  ds.foldl (fun acc d => 10 * acc + (d.toNat - 48)) 0

/-- The function `std::stoi(str)` (base 10): skips leading white space, takes an optional sign
and the longest run of digits; throws `std::invalid_argument` when there is no digit and
`std::out_of_range` when the value does not fit an `int`. -/
def stoi (s : Str) : Except Fault Int :=
  let s1 := s.dropWhile isspace
  let signed : Bool × Str :=
    match s1 with
    | '-' :: r => (true, r)
    | '+' :: r => (false, r)
    | r => (false, r)
  let ds := signed.2.takeWhile isdigit
  if ds = [] then Except.error Fault.invalidArgument
  else
    let v : Int := if signed.1 then -(digitsValue ds : Int) else (digitsValue ds : Int)
    if v < INT_MIN ∨ INT_MAX < v then Except.error Fault.outOfRange else Except.ok v

/-- The function `std::to_string(int)`, also the text `os << value` writes for an `int`. -/
def to_string (v : Int) : Str :=
  match v with
  | Int.ofNat n => Nat.toDigits 10 n
  | Int.negSucc n => '-' :: Nat.toDigits 10 (n + 1)

/-- The expression `s[i]` for a `std::string`: the character at `i`, the terminating `'\0'`
at `i = s.size()`, undefined beyond. -/
def charAt (s : Str) (i : Nat) : Except Fault Char :=
  if h : i < s.length then Except.ok (s.get ⟨i, h⟩)
  else if i = s.length then Except.ok '\x00'
  else Except.error Fault.outOfBounds

/-! ## Lexer (`latexanaly.cpp`) -/

namespace Latexanaly

/-- Modelled from the spec: the enumeration `TokenCode` of `Token.h`, which is not among the
sources; the enumerators are the ones `main` of `latexanaly.cpp` switches over. -/
inductive TokenCode where
  | Identifier | Integer | Operator | Delimiter | Keyword | Error | Print | StringLiteral
deriving DecidableEq, Repr

/-- Modelled from the spec: the struct `Token` of `Token.h` (kind, text, line, column), in the
field order of the brace initialisers of `Lexer::tokenize`. -/
structure Token where
  code : TokenCode
  value : Str
  line : Int
  column : Int
deriving DecidableEq, Repr

/-- Modelled from the spec: the global `operatorMap` of `Token.h`, a
`std::unordered_map<std::string, TokenCode>`, taken as a parameter: its entries, and the
value-initialised `TokenCode` that `operatorMap[key]` yields for an absent key. -/
structure OperatorMap where
  entries : List (Str × TokenCode)
  zero : TokenCode

/-- The call `operatorMap.count(key)`. -/
def OperatorMap.count (m : OperatorMap) (key : Str) : Nat :=
  if (m.entries.lookup key).isSome then 1 else 0

/-- The expression `operatorMap[key]`.  (For an absent key C++ would also insert it; the only
such use sits in a branch of `tokenize` that no character reaches, see
`isLetter_not_sign`, so the table is kept immutable.) -/
def OperatorMap.find (m : OperatorMap) (key : Str) : TokenCode :=
  (m.entries.lookup key).getD m.zero

/-- The data members of class `Lexer`. -/
structure Lexer where
  input_ : Str
  pos_ : Nat
  line_ : Int
  column_ : Int
  symbolTable_ : List (Str × Int)
deriving DecidableEq, Repr

/-- The constructor `Lexer(input)`. -/
def Lexer.new (input : Str) : Lexer :=
  { input_ := input, pos_ := 0, line_ := 1, column_ := 1, symbolTable_ := [] }

def isLetter (c : Char) : Bool := isalpha c

def isDigit (c : Char) : Bool := isdigit c

def isWhitespace (c : Char) : Bool := c = ' ' || c = '\t' || c = '\n'

/-- Loop of `skipWhitespace`; the first argument is the input from `pos_` on. -/
def skipWhitespaceLoop : Str → Nat → Int → Int → Nat × Int × Int
  | [], pos, line, column => (pos, line, column)
  | c :: cs, pos, line, column =>
    if isWhitespace c then
      if c = '\n' then skipWhitespaceLoop cs (pos + 1) (line + 1) 1
      else skipWhitespaceLoop cs (pos + 1) line (column + 1)
    else (pos, line, column)

/-- The method `Lexer::skipWhitespace`. -/
def skipWhitespace (lx : Lexer) : Lexer :=
  let r := skipWhitespaceLoop (lx.input_.drop lx.pos_) lx.pos_ lx.line_ lx.column_
  { lx with pos_ := r.1, line_ := r.2.1, column_ := r.2.2 }

/-- Loop of `readIdentifier`; the first argument is the input from `pos_` on. -/
def readIdentifierLoop : Str → Nat → Str → Nat × Str
  | [], pos, identifier => (pos, identifier)
  | c :: cs, pos, identifier =>
    if isLetter c || isDigit c then readIdentifierLoop cs (pos + 1) (identifier ++ [c])
    else (pos, identifier)

/-- The method `Lexer::readIdentifier`: the new state and the text read. -/
def readIdentifier (lx : Lexer) : Lexer × Str :=
  let r := readIdentifierLoop (lx.input_.drop lx.pos_) lx.pos_ []
  ({ lx with pos_ := r.1 }, r.2)

/-- Loop of `readNumber`; the first argument is the input from `pos_` on. -/
def readNumberLoop : Str → Nat → Str → Nat × Str
  | [], pos, number => (pos, number)
  | c :: cs, pos, number =>
    if isDigit c then readNumberLoop cs (pos + 1) (number ++ [c])
    else (pos, number)

/-- The method `Lexer::readNumber`: the new state and the text read. -/
def readNumber (lx : Lexer) : Lexer × Str :=
  let r := readNumberLoop (lx.input_.drop lx.pos_) lx.pos_ []
  ({ lx with pos_ := r.1 }, r.2)

/-- The assignment `symbolTable_[identifier] = arraySize`. -/
def registerArrayIdentifier (lx : Lexer) (identifier : Str) (arraySize : Int) : Lexer :=
  { lx with symbolTable_ :=
      if (lx.symbolTable_.lookup identifier).isSome then
        lx.symbolTable_.map (fun e => if e.1 = identifier then (e.1, arraySize) else e)
      else lx.symbolTable_ ++ [(identifier, arraySize)] }

/-- One pass through the body of the `while` loop of `Lexer::tokenize`, from
`char currentChar = input_[pos_]` on (white space already skipped, `pos_ < input_.size()`). -/
def tokenizeBody (operatorMap : OperatorMap) (lx : Lexer) (tokens : List Token) :
    Except Fault (Lexer × List Token) := do
  let currentChar ← charAt lx.input_ lx.pos_
  if isLetter currentChar then
    let (lx, identifier) := readIdentifier lx
    if currentChar = '+' ∨ currentChar = '-' then
      let next ← charAt lx.input_ (lx.pos_ + 1)
      if next = currentChar then
        let operatorSymbol := identifier ++ [currentChar] ++ [currentChar]
        let tokens := tokens ++ [⟨operatorMap.find operatorSymbol, operatorSymbol, lx.line_, lx.column_⟩]
        let lx := { lx with pos_ := lx.pos_ + 2 }
        let lx := { lx with pos_ := lx.pos_ + 1 }
        let _ ← charAt lx.input_ lx.pos_
        pure (lx, tokens)
      else
        pure (lx, tokens ++ [⟨TokenCode.Identifier, identifier, lx.line_, lx.column_⟩])
    else
      pure (lx, tokens ++ [⟨TokenCode.Identifier, identifier, lx.line_, lx.column_⟩])
  else if isDigit currentChar then
    let (lx, number) := readNumber lx
    let c0 ← charAt lx.input_ lx.pos_
    let isArray ← (if c0 = '[' then do
        let c1 ← charAt lx.input_ (lx.pos_ + 1)
        pure (decide (c1 = ']'))
      else pure false : Except Fault Bool)
    if isArray then
      let lx := { lx with pos_ := lx.pos_ + 2 }
      let arraySize ← stoi number
      let lx := registerArrayIdentifier lx number arraySize
      pure (lx, tokens ++ [⟨TokenCode.Identifier, number, lx.line_, lx.column_⟩,
                           ⟨TokenCode.Delimiter, ['['], lx.line_, lx.column_⟩,
                           ⟨TokenCode.Delimiter, [']'], lx.line_, lx.column_⟩])
    else
      pure (lx, tokens ++ [⟨TokenCode.Integer, number, lx.line_, lx.column_⟩])
  else if operatorMap.count [currentChar] > 0 then
    let op := [currentChar]
    pure ({ lx with pos_ := lx.pos_ + 1 },
          tokens ++ [⟨operatorMap.find op, op, lx.line_, lx.column_⟩])
  else if currentChar = '(' then
    pure ({ lx with pos_ := lx.pos_ + 1 }, tokens ++ [⟨TokenCode.Delimiter, ['('], lx.line_, lx.column_⟩])
  else if currentChar = ')' then
    pure ({ lx with pos_ := lx.pos_ + 1 }, tokens ++ [⟨TokenCode.Delimiter, [')'], lx.line_, lx.column_⟩])
  else if currentChar = ';' then
    pure ({ lx with pos_ := lx.pos_ + 1 }, tokens ++ [⟨TokenCode.Delimiter, [';'], lx.line_, lx.column_⟩])
  else if currentChar = '{' then
    pure ({ lx with pos_ := lx.pos_ + 1 }, tokens ++ [⟨TokenCode.Delimiter, ['{'], lx.line_, lx.column_⟩])
  else if currentChar = '}' then
    pure ({ lx with pos_ := lx.pos_ + 1 }, tokens ++ [⟨TokenCode.Delimiter, ['}'], lx.line_, lx.column_⟩])
  else
    let isIf ← (if currentChar = 'i' then do
        let c1 ← charAt lx.input_ (lx.pos_ + 1)
        pure (decide (c1 = 'f'))
      else pure false : Except Fault Bool)
    if isIf then
      pure ({ lx with pos_ := lx.pos_ + 2 }, tokens ++ [⟨TokenCode.Keyword, ['i', 'f'], lx.line_, lx.column_⟩])
    else
      let isElse ← (if currentChar = 'e' then do
          let c1 ← charAt lx.input_ (lx.pos_ + 1)
          if c1 = 'l' then do
            let c2 ← charAt lx.input_ (lx.pos_ + 2)
            if c2 = 's' then do
              let c3 ← charAt lx.input_ (lx.pos_ + 3)
              pure (decide (c3 = 'e'))
            else pure false
          else pure false
        else pure false : Except Fault Bool)
      if isElse then
        pure ({ lx with pos_ := lx.pos_ + 4 },
              tokens ++ [⟨TokenCode.Keyword, ['e', 'l', 's', 'e'], lx.line_, lx.column_⟩])
      else
        pure ({ lx with pos_ := lx.pos_ + 1 },
              tokens ++ [⟨TokenCode.Error, [currentChar], lx.line_, lx.column_⟩])

/-- The `while (pos_ < input_.size())` loop of `Lexer::tokenize`, on a budget of iterations. -/
def tokenizeLoop (operatorMap : OperatorMap) :
    Nat → Lexer → List Token → Except Fault (Lexer × List Token)
  | 0, _, _ => Except.error Fault.fuel
  | fuel + 1, lx, tokens =>
    if lx.pos_ < lx.input_.length then
      let lx := skipWhitespace lx
      if lx.pos_ ≥ lx.input_.length then Except.ok (lx, tokens)
      else
        match tokenizeBody operatorMap lx tokens with
        | Except.error e => Except.error e
        | Except.ok (lx, tokens) => tokenizeLoop operatorMap fuel lx tokens
    else Except.ok (lx, tokens)

/-- The method `Lexer::tokenize` run on a lexer object: the final object and the tokens.  Every
iteration that does not leave the loop consumes a character, so `input_.size() - pos_ + 1`
iterations are enough. -/
def Lexer.tokenize (operatorMap : OperatorMap) (lx : Lexer) : Except Fault (Lexer × List Token) :=
  tokenizeLoop operatorMap (lx.input_.length - lx.pos_ + 1) lx []

/-- The tokens of `Lexer(input).tokenize()`. -/
def tokenize (operatorMap : OperatorMap) (input : Str) : Except Fault (List Token) :=
  ((Lexer.new input).tokenize operatorMap).map Prod.snd

/-- The (kind, value) pair of a token. -/
def Token.kv (t : Token) : TokenCode × Str := (t.code, t.value)

/-- Modelled from the spec: an operator table with `+ - * /` and the relational and
assignment symbols, all of kind `Operator`; used for the concrete scenarios only. -/
def sampleOperatorMap : OperatorMap :=
  { entries := [(['+'], TokenCode.Operator), (['-'], TokenCode.Operator),
                (['*'], TokenCode.Operator), (['/'], TokenCode.Operator),
                (['='], TokenCode.Operator), (['<'], TokenCode.Operator),
                (['>'], TokenCode.Operator)],
    zero := TokenCode.Identifier }

/-! ### Shapes of inputs used in the statements -/

/-- A letter followed by letters and digits. -/
def isIdentifierText (l : Str) : Bool :=
  match l with
  | [] => false
  | c :: cs => isLetter c && cs.all (fun d => isLetter d || isDigit d)

/-- A non-empty run of digits. -/
def isNumberText (l : Str) : Bool :=
  match l with
  | [] => false
  | c :: cs => isDigit c && cs.all isDigit

/-- The class of a lexeme, read in the order of the lexer's tests: an identifier, a run of
digits, or one character that is a key of the operator table (and no blank, tab or newline);
`none` for any other text. -/
def lexemeKind (operatorMap : OperatorMap) (l : Str) : Option TokenCode :=
  if isIdentifierText l then some TokenCode.Identifier
  else if isNumberText l then some TokenCode.Integer
  else
    match l with
    | [c] =>
      if operatorMap.count [c] > 0 ∧ isWhitespace c = false then some (operatorMap.find [c])
      else none
    | _ => none

/-- The lexemes written one after the other, each with a space in front. -/
def spaced : List Str → Str
  | [] => []
  | l :: ls => ' ' :: (l ++ spaced ls)

/-- The lexemes separated by single spaces. -/
def joinLexemes : List Str → Str
  | [] => []
  | l :: ls => l ++ spaced ls

/-- The lexer object `lx` seen on an input with `pre` put in front: same unread text, same
counters. -/
def Lexer.shift (pre : Str) (lx : Lexer) : Lexer :=
  { lx with input_ := pre ++ lx.input_, pos_ := pre.length + lx.pos_ }

/-- The name `main` writes for a token kind (the `switch` over `token.code`). -/
def kindName : TokenCode → Str
  | TokenCode.Identifier => "Identifier".toList
  | TokenCode.Integer => "Integer".toList
  | TokenCode.Operator => "Operator".toList
  | TokenCode.Delimiter => "Delimiter".toList
  | TokenCode.Keyword => "Keyword".toList
  | TokenCode.Error => "Error".toList
  | TokenCode.Print => "Print".toList
  | TokenCode.StringLiteral => "StringLiteral".toList

/-- The text `main` writes to the token file for one token, up to the `std::endl`. -/
def tokenLine (t : Token) : Str :=
  " TokenType::".toList ++ kindName t.code ++ [' ', ',', '"'] ++ t.value ++ ['"', ' ']

/-- The content of the token file `main` writes: one line for each token. -/
def writeTokens (tokens : List Token) : Str :=
  (tokens.map (fun t => tokenLine t ++ ['\n'])).flatten

end Latexanaly

/-! ## Parser (`Pareranaly.cpp`) -/

namespace Pareranaly

/-- A `std::unique_ptr<ExprNode>`: null, or owning one of the four node classes
`IfElseExprNode`, `AssignmentStatementNode`, `IntExprNode`, `BinaryOpExprNode`. -/
inductive ExprNode where
  | null
  | IfElse (condition ifBranch elseBranch : ExprNode)
  | Assignment (identifier : Str) (expression : ExprNode)
  | Int (value : Int)
  | BinaryOp (op : Char) (left right : ExprNode)
deriving DecidableEq, Repr

/-- The virtual method `print(os)` called through a pointer: the text written. -/
def ExprNode.print : ExprNode → Except Fault Str
  | ExprNode.null => Except.error Fault.nullDeref
  | ExprNode.IfElse condition ifBranch elseBranch => do
    let c ← condition.print
    let t ← ifBranch.print
    let e ← elseBranch.print
    pure ("If-else\n".toList ++ "Condition: ".toList ++ c ++ ['\n'] ++ "If branch: ".toList ++ t
      ++ ['\n'] ++ "Else branch: ".toList ++ e ++ ['\n'])
  | ExprNode.Assignment identifier expression => do
    let e ← expression.print
    pure (identifier ++ " = ".toList ++ e)
  | ExprNode.Int value => pure (to_string value)
  | ExprNode.BinaryOp op left right => do
    let l ← left.print
    let r ← right.print
    pure (l ++ [' '] ++ [op] ++ [' '] ++ r)

/-- The enumeration `TokenType`. -/
inductive TokenType where
  | Integer | Operator | Keyword | Identifier | Delimiter | Print | StringLiteral
deriving DecidableEq, Repr

/-- The struct `Token` of the parser. -/
structure Token where
  type : TokenType
  value : Str
deriving DecidableEq, Repr

/-- The test `currentIndex < tokens.size() && tokens[currentIndex].type == ty`. -/
def typeAt (tokens : List Token) (currentIndex : Nat) (ty : TokenType) : Bool :=
  match tokens.get? currentIndex with
  | some t => t.type = ty
  | none => false

/-- The test `currentIndex < tokens.size() && tokens[currentIndex].value == v`. -/
def valueAt (tokens : List Token) (currentIndex : Nat) (v : Str) : Bool :=
  match tokens.get? currentIndex with
  | some t => t.value = v
  | none => false

/-- The text `tokens[currentIndex].value` (read only under a bounds test). -/
def valueOf (tokens : List Token) (currentIndex : Nat) : Str :=
  match tokens.get? currentIndex with
  | some t => t.value
  | none => []

/-- The literal text handed to `std::stoi` in `parseTerm`: the token text without a pair of
enclosing double quotes. -/
def unquote (valueStr : Str) : Str :=
  if valueStr.length ≥ 2 ∧ valueStr.head? = some '"' ∧ valueStr.getLast? = some '"' then
    (valueStr.drop 1).take (valueStr.length - 2)
  else valueStr

/- The three mutually recursive pieces of the parser, each on a budget that goes down by one
at every call and loop iteration.  A result is the pointer returned and the value of
`currentIndex` afterwards. -/
mutual

/-- The method `Parser::parseExpression`. -/
def parseExpression (tokens : List Token) : Nat → Nat → Except Fault (ExprNode × Nat)
  | 0, _ => Except.error Fault.fuel
  | fuel + 1, currentIndex =>
    match parseTerm tokens fuel currentIndex with
    | Except.error e => Except.error e
    | Except.ok (left, currentIndex) => parseExpressionLoop tokens fuel left currentIndex

/-- The `while` loop of `Parser::parseExpression`. -/
def parseExpressionLoop (tokens : List Token) :
    Nat → ExprNode → Nat → Except Fault (ExprNode × Nat)
  | 0, _, _ => Except.error Fault.fuel
  | fuel + 1, left, currentIndex =>
    if typeAt tokens currentIndex TokenType.Operator then
      let op := valueOf tokens currentIndex
      match parseTerm tokens fuel (currentIndex + 1) with
      | Except.error e => Except.error e
      | Except.ok (right, currentIndex) =>
        let left := ExprNode.BinaryOp (op.headD '\x00') left right
        if typeAt tokens currentIndex TokenType.Delimiter then
          Except.ok (left, currentIndex + 1)
        else parseExpressionLoop tokens fuel left currentIndex
    else Except.ok (left, currentIndex)

/-- The method `Parser::parseTerm`. -/
def parseTerm (tokens : List Token) : Nat → Nat → Except Fault (ExprNode × Nat)
  | 0, _ => Except.error Fault.fuel
  | fuel + 1, currentIndex =>
    if typeAt tokens currentIndex TokenType.Integer then
      let value := unquote (valueOf tokens currentIndex)
      match stoi value with
      | Except.error _ => Except.ok (ExprNode.null, currentIndex)
      | Except.ok intValue => Except.ok (ExprNode.Int intValue, currentIndex + 1)
    else if typeAt tokens currentIndex TokenType.Identifier then
      let identifier := valueOf tokens currentIndex
      let currentIndex := currentIndex + 1
      if valueAt tokens currentIndex ['='] then
        match parseExpression tokens fuel (currentIndex + 1) with
        | Except.error e => Except.error e
        | Except.ok (expression, currentIndex) =>
          Except.ok (ExprNode.Assignment identifier expression, currentIndex)
      else Except.ok (ExprNode.null, currentIndex)
    else Except.ok (ExprNode.null, currentIndex)

end

/-- The method `Parser::parseIfStatement` (private, with no caller in the program). -/
def parseIfStatement (tokens : List Token) (fuel : Nat) (currentIndex : Nat) :
    Except Fault (ExprNode × Nat) :=
  if typeAt tokens currentIndex TokenType.Keyword ∧ valueAt tokens currentIndex "if".toList then
    match parseExpression tokens fuel (currentIndex + 1) with
    | Except.error e => Except.error e
    | Except.ok (ifBranch, currentIndex) =>
      if ifBranch = ExprNode.null then Except.ok (ExprNode.null, currentIndex)
      else
        match parseExpression tokens fuel currentIndex with
        | Except.error e => Except.error e
        | Except.ok (condition, currentIndex) =>
          if condition = ExprNode.null then Except.ok (ExprNode.null, currentIndex)
          else if typeAt tokens currentIndex TokenType.Keyword
              ∧ valueAt tokens currentIndex "else".toList then
            match parseExpression tokens fuel (currentIndex + 1) with
            | Except.error e => Except.error e
            | Except.ok (elseBranch, currentIndex) =>
              if elseBranch = ExprNode.null then Except.ok (ExprNode.null, currentIndex)
              else Except.ok (ExprNode.IfElse condition ifBranch elseBranch, currentIndex)
          else Except.ok (ExprNode.IfElse condition ifBranch ExprNode.null, currentIndex)
  else Except.ok (ExprNode.null, currentIndex)

/-- The budget given to the parser: a call at index `i` needs at most
`tokens.size() - i + 2`. -/
def parseFuel (tokens : List Token) : Nat := tokens.length + 2

/-- The method `Parser::parse` of `Parser(tokens)`: the pointer returned and the final
`currentIndex`. -/
def Parser.parse (tokens : List Token) : Except Fault (ExprNode × Nat) :=
  parseExpression tokens (parseFuel tokens) 0

/-- The pointer `Parser(tokens).parse()` returns. -/
def parse (tokens : List Token) : Except Fault ExprNode :=
  (Parser.parse tokens).map Prod.fst

/-! ### Shapes of token streams used in the statements -/

/-- An operator token, an integer token, and the value of the integer text. -/
structure OpOperand where
  opText : Str
  intText : Str
  intValue : Int

/-- The tokens `Operator o1, Integer n1, Operator o2, Integer n2, ...`. -/
def opTokens : List OpOperand → List Token
  | [] => []
  | p :: rest => ⟨TokenType.Operator, p.opText⟩ :: ⟨TokenType.Integer, p.intText⟩ :: opTokens rest

/-- The left-nested tree `BinaryOp(ok, ... BinaryOp(o1, left, n1) ..., nk)`. -/
def foldOps (left : ExprNode) : List OpOperand → ExprNode
  | [] => left
  | p :: rest => foldOps (ExprNode.BinaryOp (p.opText.headD '\x00') left (ExprNode.Int p.intValue)) rest

/-- The constant `std::string::npos`, for a 64-bit `size_t`. -/
def npos : Nat := 2 ^ 64 - 1

/-- Addition of `size_t` values. -/
def sizeAdd (a b : Nat) : Nat := (a + b) % 2 ^ 64

/-- Subtraction of `size_t` values. -/
def sizeSub (a b : Nat) : Nat := (a + 2 ^ 64 - b % 2 ^ 64) % 2 ^ 64

/-- Search of `pat` in a text whose first character has index `i`. -/
def findFrom (pat : Str) : Str → Nat → Nat
  | [], i => if pat = [] then i else npos
  | c :: cs, i => if (c :: cs).take pat.length = pat then i else findFrom pat cs (i + 1)

/-- The call `s.find(pat)`: the index of the first occurrence, or `npos`. -/
def find (s pat : Str) : Nat := findFrom pat s 0

/-- Search of the last `c` in a text whose first character has index `i`, `best` being the
answer so far. -/
def findLastFrom (c : Char) : Str → Nat → Nat → Nat
  | [], _, best => best
  | d :: ds, i, best => findLastFrom c ds (i + 1) (if d = c then i else best)

/-- The call `s.find_last_of(c)`: the index of the last occurrence, or `npos`. -/
def find_last_of (s : Str) (c : Char) : Nat := findLastFrom c s 0 npos

/-- The call `s.substr(pos, n)`; throws `std::out_of_range` for `pos > s.size()`. -/
def substr (s : Str) (pos n : Nat) : Except Fault Str :=
  if pos > s.length then Except.error Fault.outOfRange else Except.ok ((s.drop pos).take n)

/-- The extraction `ss >> word` into an empty string: the word (empty when the extraction
fails) and the unread text. -/
def readWord (ss : Str) : Str × Str :=
  let s := ss.dropWhile isspace
  (s.takeWhile (fun c => !isspace c), s.dropWhile (fun c => !isspace c))

/-- The part of the loop body of `readTokensFromFile` that finds the kind from the first word
of the line: `none` when the kind is reported as invalid and the line is skipped. -/
def decodeType (typeStr : Str) : Except Fault (Option TokenType) := do
  let typeStr := typeStr.filter (fun c => !isspace c)
  let start := sizeAdd (find typeStr [':', ':']) 2
  let end_ := find_last_of typeStr '>'
  let tokenType ← substr typeStr start (sizeSub end_ start)
  if tokenType = "Integer".toList then pure (some TokenType.Integer)
  else if tokenType = "Operator".toList then pure (some TokenType.Operator)
  else if tokenType = "Keyword".toList then pure (some TokenType.Keyword)
  else if tokenType = "Identifier".toList then pure (some TokenType.Identifier)
  else if tokenType = "Delimiter".toList then pure (some TokenType.Delimiter)
  else pure none

/-- The part of the loop body of `readTokensFromFile` that takes the token value out of the
second word of the line. -/
def decodeValue (value : Str) : Except Fault Str :=
  let valueStart := sizeAdd (find value ['"']) 1
  let valueEnd := find_last_of value '"'
  substr value valueStart (sizeSub valueEnd valueStart)

/-- The body of the `while (std::getline(file, line))` loop of `readTokensFromFile` for one
line: `none` when the line is skipped by `continue`, else the token pushed. -/
def decodeLine (line : Str) : Except Fault (Option Token) :=
  let r1 := readWord line
  let r2 := readWord r1.2
  match decodeType r1.1 with
  | Except.error e => Except.error e
  | Except.ok none => Except.ok none
  | Except.ok (some type) =>
    match decodeValue r2.1 with
    | Except.error e => Except.error e
    | Except.ok tokenValue => Except.ok (some ⟨type, tokenValue⟩)

/-- The lines `std::getline` returns one after the other, `cur` being the line read so far. -/
def getlinesFrom : Str → Str → List Str
  | [], cur => if cur = [] then [] else [cur]
  | c :: cs, cur => if c = '\n' then cur :: getlinesFrom cs [] else getlinesFrom cs (cur ++ [c])

/-- The loop of `readTokensFromFile` over the lines. -/
def decodeLines : List Str → List Token → Except Fault (List Token)
  | [], tokens => Except.ok tokens
  | line :: rest, tokens =>
    match decodeLine line with
    | Except.error e => Except.error e
    | Except.ok none => decodeLines rest tokens
    | Except.ok (some t) => decodeLines rest (tokens ++ [t])

/-- The function `readTokensFromFile` on a file that opens and has the given content. -/
def readTokensFromFile (content : Str) : Except Fault (List Token) :=
  decodeLines (getlinesFrom content []) []

/-- The parser's kind for a kind name the reader accepts; `none` for the kinds it skips. -/
def readKind : Latexanaly.TokenCode → Option TokenType
  | Latexanaly.TokenCode.Integer => some TokenType.Integer
  | Latexanaly.TokenCode.Operator => some TokenType.Operator
  | Latexanaly.TokenCode.Keyword => some TokenType.Keyword
  | Latexanaly.TokenCode.Identifier => some TokenType.Identifier
  | Latexanaly.TokenCode.Delimiter => some TokenType.Delimiter
  | _ => none

/-- The token the reader gives back for a token of the lexer, if any. -/
def readBack (t : Latexanaly.Token) : Option Token :=
  (readKind t.code).map (fun ty => ⟨ty, t.value⟩)

/-- No `IfElseExprNode` at any depth of the tree. -/
def noIfElse : ExprNode → Bool
  | ExprNode.null => true
  | ExprNode.IfElse _ _ _ => false
  | ExprNode.Assignment _ expression => noIfElse expression
  | ExprNode.Int _ => true
  | ExprNode.BinaryOp _ left right => noIfElse left && noIfElse right

end Pareranaly

/-! ## Lowering to postfix (`convertToReversePolish.cpp`) -/

namespace ReversePolish

/-- A `std::unique_ptr<ASTNode>`: null, or owning one of the three node classes
`IntExprNode`, `BinaryOpExprNode`, `AssignmentExprNode`. -/
inductive ASTNode where
  | null
  | Int (value : Int)
  | BinaryOp (op : Char) (left right : ASTNode)
  | Assignment (variable_ : Str) (expression : ASTNode)
deriving DecidableEq, Repr

/-- The virtual method `generateCode()` called through a pointer. -/
def ASTNode.generateCode : ASTNode → Except Fault Str
  | ASTNode.null => Except.error Fault.nullDeref
  | ASTNode.Int value => pure (to_string value)
  | ASTNode.BinaryOp op left right => do
    let l ← left.generateCode
    let r ← right.generateCode
    pure ((l ++ [' '] ++ r ++ [' ']) ++ [op])
  | ASTNode.Assignment variable_ expression => do
    let e ← expression.generateCode
    pure (e ++ [' '] ++ variable_ ++ " =".toList)

def isOperator (ch : Char) : Bool := ch = '+' || ch = '-' || ch = '*' || ch = '/'

/-- The extraction `ss >> token` on a `std::stringstream` whose unread text is `ss`: white
space is skipped and the characters up to the next white space are taken.  `none` when no
character is left (the stream fails and stays failed, the string is left as it was);
otherwise the word and the unread text. -/
def extract (ss : Str) : Option (Str × Str) :=
  let s := ss.dropWhile isspace
  if s = [] then none
  else some (s.takeWhile (fun c => !isspace c), s.dropWhile (fun c => !isspace c))

/- The text parser of the lowering stage, each function on a budget that goes down by one
at every call and loop iteration.  A result is the pointer returned and the unread text of
the stream.  (`parseFactor` has no caller and is left out.) -/
mutual

/-- The function `parseTerm(ss)`. -/
def parseTerm : Nat → Str → Except Fault (ASTNode × Str)
  | 0, _ => Except.error Fault.fuel
  | fuel + 1, ss =>
    let r : Str × Str := (extract ss).getD ([], [])
    let token := r.1
    let ss := r.2
    if isdigit (token.headD '\x00') then
      match stoi token with
      | Except.error e => Except.error e
      | Except.ok value => Except.ok (ASTNode.Int value, ss)
    else if token = ['('] then
      match parseExpression fuel ss with
      | Except.error e => Except.error e
      | Except.ok (expr, ss) =>
        if expr = ASTNode.null then Except.ok (ASTNode.null, ss)
        else
          let r : Str × Str := (extract ss).getD ([], [])
          let closingParenthesis := r.1
          let ss := r.2
          if closingParenthesis ≠ [')'] then Except.ok (ASTNode.null, ss)
          else Except.ok (expr, ss)
    else Except.ok (ASTNode.null, ss)

/-- The function `parseExpression(ss)`. -/
def parseExpression : Nat → Str → Except Fault (ASTNode × Str)
  | 0, _ => Except.error Fault.fuel
  | fuel + 1, ss =>
    match parseTerm fuel ss with
    | Except.error e => Except.error e
    | Except.ok (left, ss) => parseExpressionLoop fuel left ss

/-- The `while (ss >> token && isOperator(token[0]))` loop of `parseExpression(ss)`. -/
def parseExpressionLoop : Nat → ASTNode → Str → Except Fault (ASTNode × Str)
  | 0, _, _ => Except.error Fault.fuel
  | fuel + 1, left, ss =>
    match extract ss with
    | none => Except.ok (left, [])
    | some (token, ss) =>
      if isOperator (token.headD '\x00') then
        let op := token.headD '\x00'
        match parseTerm fuel ss with
        | Except.error e => Except.error e
        | Except.ok (right, ss) =>
          if right = ASTNode.null then Except.ok (ASTNode.null, ss)
          else parseExpressionLoop fuel (ASTNode.BinaryOp op left right) ss
      else Except.ok (left, ss)

end

/-- The pointer `parseExpression(ss)` returns for a stream holding `treeString`, as `main`
calls it.  A nested call of `parseExpression` and an iteration of its loop each come after a
word was taken from the stream, so a call on `n` unread characters needs at most `2 * n + 2`. -/
def parseTree (treeString : Str) : Except Fault ASTNode :=
  (parseExpression (2 * treeString.length + 2) treeString).map Prod.fst

/-- The words of a text from a point on, `cur` being the word read so far: the maximal runs
of characters other than the space. -/
def wordsFrom : Str → Str → List Str
  | [], cur => if cur = [] then [] else [cur]
  | c :: cs, cur =>
    if c = ' ' then (if cur = [] then wordsFrom cs [] else cur :: wordsFrom cs [])
    else wordsFrom cs (cur ++ [c])

/-- The space-separated token list of a postfix text. -/
def words (s : Str) : List Str := wordsFrom s []

/-- A token that is a non-empty run of digits. -/
def isIntegerToken (w : Str) : Bool :=
  match w with
  | [] => false
  | c :: cs => isdigit c && cs.all isdigit

/-- A token that is one of the characters `+ - * /`. -/
def isOperatorToken (w : Str) : Bool :=
  match w with
  | [c] => isOperator c
  | _ => false

/-- A tree built from `IntExprNode` with a non-negative value and `BinaryOpExprNode` with an
operator among `+ - * /`, no pointer being null. -/
def pipelineTree : ASTNode → Bool
  | ASTNode.null => false
  | ASTNode.Int value => decide (0 ≤ value)
  | ASTNode.BinaryOp op left right => isOperator op && pipelineTree left && pipelineTree right
  | ASTNode.Assignment _ _ => false

/-- The arity property of a token list: one more integer token than operator tokens, and in
every non-empty initial part more integer tokens than operator tokens. -/
def Balanced (ws : List Str) : Prop :=
  ws.countP isIntegerToken = ws.countP isOperatorToken + 1 ∧
  ∀ n, 0 < n → n ≤ ws.length →
    (ws.take n).countP isOperatorToken < (ws.take n).countP isIntegerToken

/-- A tree of non-negative integer literals and `+ - * /` operations, or one assignment of
such a tree to a name (a letter followed by letters and digits) at the root. -/
def statementTree : ASTNode → Bool
  | ASTNode.Assignment variable_ expression =>
    Latexanaly.isIdentifierText variable_ && pipelineTree expression
  | ASTNode.null => false
  | ASTNode.Int value => pipelineTree (ASTNode.Int value)
  | ASTNode.BinaryOp op left right => pipelineTree (ASTNode.BinaryOp op left right)

end ReversePolish

/-! ## Code generator (`Target.cpp`) -/

namespace Target

/-- The pair `stack.top(); stack.pop();` on a stack whose top is the head of the list. -/
def pop (stack : List Str) : Except Fault (Str × List Str) :=
  match stack with
  | [] => Except.error Fault.stackUnderflow
  | v :: rest => Except.ok (v, rest)

/-- The body shared by the branches for `+ - * /`, with the mnemonic of the branch. -/
def operatorStep (mnemonic : Str) (stack : List Str) (assemblyCode : Str) :
    Except Fault (List Str × Str) := do
  let (operand1, stack) ← pop stack
  let (operand2, stack) ← pop stack
  let assemblyCode := assemblyCode ++ ("push ".toList ++ operand2 ++ ['\n'])
  let assemblyCode := assemblyCode ++ ("push ".toList ++ operand1 ++ ['\n'])
  let assemblyCode := assemblyCode ++ (mnemonic ++ ['\n'])
  pure ("result".toList :: stack, assemblyCode)

/-- The `for` loop of `convertToAssembly`, on a budget of iterations; the second argument is
the expression from index `i` on. -/
def scanLoop : Nat → Str → List Str → Str → Except Fault (List Str × Str)
  | _, [], stack, assemblyCode => Except.ok (stack, assemblyCode)
  | 0, _ :: _, _, _ => Except.error Fault.fuel
  | fuel + 1, c :: rest, stack, assemblyCode =>
    if c = '=' then
      match pop stack with
      | Except.error e => Except.error e
      | Except.ok (assignmentValue, stack) =>
        match pop stack with
        | Except.error e => Except.error e
        | Except.ok (variableName, stack) =>
          scanLoop fuel rest stack
            (assemblyCode ++ ("mov ".toList ++ variableName ++ ", ".toList ++ assignmentValue ++ ['\n']))
    else if isdigit c then
      scanLoop fuel rest ([c] :: stack) assemblyCode
    else if isalpha c then
      let variableName := c :: rest.takeWhile isalnum
      scanLoop fuel (rest.dropWhile isalnum) (variableName :: stack) assemblyCode
    else if c = '+' then
      match operatorStep "add".toList stack assemblyCode with
      | Except.error e => Except.error e
      | Except.ok (stack, assemblyCode) => scanLoop fuel rest stack assemblyCode
    else if c = '-' then
      match operatorStep "sub".toList stack assemblyCode with
      | Except.error e => Except.error e
      | Except.ok (stack, assemblyCode) => scanLoop fuel rest stack assemblyCode
    else if c = '*' then
      match operatorStep "mul".toList stack assemblyCode with
      | Except.error e => Except.error e
      | Except.ok (stack, assemblyCode) => scanLoop fuel rest stack assemblyCode
    else if c = '/' then
      match operatorStep "div".toList stack assemblyCode with
      | Except.error e => Except.error e
      | Except.ok (stack, assemblyCode) => scanLoop fuel rest stack assemblyCode
    else scanLoop fuel rest stack assemblyCode

/-- The closing `while (!stack.empty())` loop of `convertToAssembly`. -/
def flushLoop : List Str → Str → Str
  | [], assemblyCode => assemblyCode
  | value :: stack, assemblyCode =>
    if value ≠ "result".toList then flushLoop stack (assemblyCode ++ ("push ".toList ++ value ++ ['\n']))
    else flushLoop stack assemblyCode

/-- The function `convertToAssembly(expression)`. -/
def convertToAssembly (expression : Str) : Except Fault Str :=
  match scanLoop expression.length expression [] [] with
  | Except.error e => Except.error e
  | Except.ok (stack, assemblyCode) => Except.ok (flushLoop stack assemblyCode)

/-- The line `push <operand>`. -/
def pushLine (operand : Str) : Str := "push ".toList ++ operand ++ ['\n']

/-- The instruction emitted for an operator character. -/
def mnemonic (c : Char) : Str :=
  if c = '+' then "add".toList
  else if c = '-' then "sub".toList
  else if c = '*' then "mul".toList
  else "div".toList

end Target

end Compiler

/-! # Theorems -/

namespace Compiler

/-! ## Lists -/

theorem drop_succ_of_drop_cons {α : Type} {l : List α} {i : Nat} {t : α} {r : List α}
    (h : l.drop i = t :: r) : l.drop (i + 1) = r := by
  rw [← List.tail_drop, h]; rfl

/-! ## Lexer -/

namespace Latexanaly

theorem charAt_append (pre s : Str) (i : Nat) : charAt (pre ++ s) (pre.length + i) = charAt s i := by
  unfold charAt
  by_cases h : i < s.length
  · have h2 : pre.length + i < (pre ++ s).length := by simp; omega
    simp only [h, h2, dite_true]
    congr 1
    simp [List.getElem_append_right]
  · have h2 : ¬ pre.length + i < pre.length + s.length := by omega
    by_cases h3 : i = s.length
    · simp [h3]
    · have h4 : ¬ pre.length + i = pre.length + s.length := by omega
      simp only [List.length_append, h, h2, h3, h4, dite_false, if_false]

theorem skipWhitespaceLoop_add (a : Nat) :
    ∀ (l : Str) (p : Nat) (line column : Int),
      skipWhitespaceLoop l (a + p) line column
        = (a + (skipWhitespaceLoop l p line column).1, (skipWhitespaceLoop l p line column).2) := by
  intro l
  induction l with
  | nil => intro p line column; rfl
  | cons c cs ih =>
    intro p line column
    simp only [skipWhitespaceLoop]
    split_ifs
    · rw [Nat.add_assoc, ih]
    · rw [Nat.add_assoc, ih]
    · rfl

theorem readIdentifierLoop_add (a : Nat) :
    ∀ (l : Str) (p : Nat) (acc : Str),
      readIdentifierLoop l (a + p) acc
        = (a + (readIdentifierLoop l p acc).1, (readIdentifierLoop l p acc).2) := by
  intro l
  induction l with
  | nil => intro p acc; rfl
  | cons c cs ih =>
    intro p acc
    simp only [readIdentifierLoop]
    split_ifs
    · rw [Nat.add_assoc, ih]
    · rfl

theorem readNumberLoop_add (a : Nat) :
    ∀ (l : Str) (p : Nat) (acc : Str),
      readNumberLoop l (a + p) acc
        = (a + (readNumberLoop l p acc).1, (readNumberLoop l p acc).2) := by
  intro l
  induction l with
  | nil => intro p acc; rfl
  | cons c cs ih =>
    intro p acc
    simp only [readNumberLoop]
    split_ifs
    · rw [Nat.add_assoc, ih]
    · rfl

theorem skipWhitespace_shift (pre : Str) (lx : Lexer) :
    skipWhitespace (lx.shift pre) = (skipWhitespace lx).shift pre := by
  simp only [skipWhitespace, Lexer.shift, List.drop_append, skipWhitespaceLoop_add]

theorem readIdentifier_shift (pre : Str) (lx : Lexer) :
    readIdentifier (lx.shift pre) = ((readIdentifier lx).1.shift pre, (readIdentifier lx).2) := by
  simp only [readIdentifier, Lexer.shift, List.drop_append, readIdentifierLoop_add]

theorem readNumber_shift (pre : Str) (lx : Lexer) :
    readNumber (lx.shift pre) = ((readNumber lx).1.shift pre, (readNumber lx).2) := by
  simp only [readNumber, Lexer.shift, List.drop_append, readNumberLoop_add]

theorem charAt_shift (pre : Str) (lx : Lexer) (k : Nat) :
    charAt (lx.shift pre).input_ ((lx.shift pre).pos_ + k) = charAt lx.input_ (lx.pos_ + k) := by
  simp only [Lexer.shift, Nat.add_assoc, charAt_append]

theorem charAt_shift_zero (pre : Str) (lx : Lexer) :
    charAt (lx.shift pre).input_ (lx.shift pre).pos_ = charAt lx.input_ lx.pos_ :=
  charAt_shift pre lx 0

theorem isLetter_not_sign (c : Char) (h : isLetter c = true) : ¬ (c = '+' ∨ c = '-') := by
  rintro (rfl | rfl) <;> revert h <;> decide

theorem tokenizeBody_shift (operatorMap : OperatorMap) (pre : Str) (lx : Lexer)
    (tokens : List Token) :
    tokenizeBody operatorMap (lx.shift pre) tokens
      = (tokenizeBody operatorMap lx tokens).map (fun r => (r.1.shift pre, r.2)) := by
  unfold tokenizeBody
  simp only [charAt_shift_zero, readIdentifier_shift, readNumber_shift, charAt_shift]
  cases charAt lx.input_ lx.pos_ with
  | error e => rfl
  | ok c =>
    simp only [bind, Except.bind, pure, Except.pure]
    by_cases hL : isLetter c = true
    · simp only [hL, if_true, isLetter_not_sign c hL, if_false]
      rfl
    · simp only [hL, if_false]
      by_cases hD : isDigit c = true
      · simp only [hD, if_true]
        cases charAt (readNumber lx).1.input_ (readNumber lx).1.pos_ with
        | error e => rfl
        | ok c0 =>
          simp only []
          by_cases h0 : c0 = '['
          · simp only [h0, if_true]
            cases charAt (readNumber lx).1.input_ ((readNumber lx).1.pos_ + 1) with
            | error e => rfl
            | ok c1 =>
              simp only []
              by_cases h1 : c1 = ']'
              · simp only [h1, decide_True, if_true]
                cases stoi (readNumber lx).2 with
                | error e => rfl
                | ok v => rfl
              · simp only [h1, decide_False, if_false]
                rfl
          · simp only [h0, if_false]
            rfl
      · simp only [hD, if_false]
        by_cases hO : operatorMap.count [c] > 0
        · simp only [hO, if_true]; rfl
        simp only [hO, if_false]
        by_cases h1 : c = '('
        · simp only [h1, if_true]; rfl
        simp only [h1, if_false]
        by_cases h2 : c = ')'
        · simp only [h2, if_true]; rfl
        simp only [h2, if_false]
        by_cases h3 : c = ';'
        · simp only [h3, if_true]; rfl
        simp only [h3, if_false]
        by_cases h4 : c = '{'
        · simp only [h4, if_true]; rfl
        simp only [h4, if_false]
        by_cases h5 : c = '}'
        · simp only [h5, if_true]; rfl
        simp only [h5, if_false]
        have hi : c ≠ 'i' := by rintro rfl; exact hL (by decide)
        have he : c ≠ 'e' := by rintro rfl; exact hL (by decide)
        simp only [hi, he, if_false]
        rfl

theorem tokenizeBody_tokens (operatorMap : OperatorMap) (lx : Lexer) (tokens : List Token) :
    tokenizeBody operatorMap lx tokens
      = (tokenizeBody operatorMap lx []).map (fun r => (r.1, tokens ++ r.2)) := by
  unfold tokenizeBody
  simp only [List.nil_append]
  cases charAt lx.input_ lx.pos_ with
  | error e => rfl
  | ok c =>
    simp only [bind, Except.bind, pure, Except.pure]
    by_cases hL : isLetter c = true
    · simp only [hL, if_true, isLetter_not_sign c hL, if_false]
      rfl
    · simp only [hL, if_false]
      by_cases hD : isDigit c = true
      · simp only [hD, if_true]
        cases charAt (readNumber lx).1.input_ (readNumber lx).1.pos_ with
        | error e => rfl
        | ok c0 =>
          simp only []
          by_cases h0 : c0 = '['
          · simp only [h0, if_true]
            cases charAt (readNumber lx).1.input_ ((readNumber lx).1.pos_ + 1) with
            | error e => rfl
            | ok c1 =>
              simp only []
              by_cases h1 : c1 = ']'
              · simp only [h1, decide_True, if_true]
                cases stoi (readNumber lx).2 with
                | error e => rfl
                | ok v => rfl
              · simp only [h1, decide_False, if_false]
                rfl
          · simp only [h0, if_false]
            rfl
      · simp only [hD, if_false]
        by_cases hO : operatorMap.count [c] > 0
        · simp only [hO, if_true]; rfl
        simp only [hO, if_false]
        by_cases h1 : c = '('
        · simp only [h1, if_true]; rfl
        simp only [h1, if_false]
        by_cases h2 : c = ')'
        · simp only [h2, if_true]; rfl
        simp only [h2, if_false]
        by_cases h3 : c = ';'
        · simp only [h3, if_true]; rfl
        simp only [h3, if_false]
        by_cases h4 : c = '{'
        · simp only [h4, if_true]; rfl
        simp only [h4, if_false]
        by_cases h5 : c = '}'
        · simp only [h5, if_true]; rfl
        simp only [h5, if_false]
        have hi : c ≠ 'i' := by rintro rfl; exact hL (by decide)
        have he : c ≠ 'e' := by rintro rfl; exact hL (by decide)
        simp only [hi, he, if_false]
        rfl

theorem tokenizeLoop_shift (operatorMap : OperatorMap) (pre : Str) :
    ∀ (fuel : Nat) (lx : Lexer) (tokens : List Token),
      tokenizeLoop operatorMap fuel (lx.shift pre) tokens
        = (tokenizeLoop operatorMap fuel lx tokens).map (fun r => (r.1.shift pre, r.2)) := by
  intro fuel
  induction fuel with
  | zero => intro lx tokens; rfl
  | succ f ih =>
    intro lx tokens
    have hlt : ∀ l : Lexer, ((l.shift pre).pos_ < (l.shift pre).input_.length) ↔
        (l.pos_ < l.input_.length) := by
      intro l; simp only [Lexer.shift, List.length_append]; omega
    simp only [tokenizeLoop, skipWhitespace_shift, tokenizeBody_shift, ge_iff_le, ← Nat.not_lt, hlt]
    by_cases h1 : lx.pos_ < lx.input_.length
    · simp only [h1, if_true]
      by_cases h2 : (skipWhitespace lx).pos_ < (skipWhitespace lx).input_.length
      · simp only [h2, not_true, if_false]
        cases hb : tokenizeBody operatorMap (skipWhitespace lx) tokens with
        | error e => rfl
        | ok r =>
          obtain ⟨l, t⟩ := r
          simp only [Except.map]
          exact ih l t
      · simp only [h2, not_false_iff, if_true]; rfl
    · simp only [h1, if_false]; rfl

theorem tokenizeLoop_tokens (operatorMap : OperatorMap) :
    ∀ (fuel : Nat) (lx : Lexer) (tokens : List Token),
      tokenizeLoop operatorMap fuel lx tokens
        = (tokenizeLoop operatorMap fuel lx []).map (fun r => (r.1, tokens ++ r.2)) := by
  intro fuel
  induction fuel with
  | zero => intro lx tokens; rfl
  | succ f ih =>
    intro lx tokens
    simp only [tokenizeLoop]
    by_cases h1 : lx.pos_ < lx.input_.length
    · simp only [h1, if_true]
      by_cases h2 : (skipWhitespace lx).pos_ ≥ (skipWhitespace lx).input_.length
      · simp only [h2, if_true, Except.map, List.append_nil]
      · simp only [h2, if_false]
        rw [tokenizeBody_tokens]
        cases hb : tokenizeBody operatorMap (skipWhitespace lx) [] with
        | error e => rfl
        | ok r =>
          obtain ⟨l, t⟩ := r
          simp only [Except.map]
          rw [ih l (tokens ++ t), ih l t]
          cases tokenizeLoop operatorMap f l [] with
          | error e => rfl
          | ok r2 => simp only [Except.map, List.append_assoc]
    · simp only [h1, if_false, Except.map, List.append_nil]

theorem charAt_of_drop_cons {s : Str} {i : Nat} {c : Char} {r : Str} (h : s.drop i = c :: r) :
    charAt s i = Except.ok c := by
  have hi : i < s.length := by
    by_contra hn
    rw [List.drop_of_length_le (by omega)] at h
    exact List.noConfusion h
  have hg : s[i]? = some c := by rw [← List.head?_drop, h]; rfl
  have hc : s[i] = c := by
    rw [List.getElem?_eq_getElem hi] at hg
    exact Option.some.inj hg
  simp only [charAt, hi, dite_true, List.get_eq_getElem, hc]

theorem skipWhitespace_of_drop_cons {lx : Lexer} {c : Char} {r : Str}
    (h : lx.input_.drop lx.pos_ = c :: r) (hw : isWhitespace c = false) :
    skipWhitespace lx = lx := by
  simp [skipWhitespace, h, skipWhitespaceLoop, hw]

theorem tokenizeBody_error (operatorMap : OperatorMap) (lx : Lexer) (tokens : List Token)
    (c : Char) (hc : charAt lx.input_ lx.pos_ = Except.ok c)
    (hl : isLetter c = false) (hd : isDigit c = false) (hop : operatorMap.count [c] = 0)
    (hdelim : c ∉ ['(', ')', ';', '{', '}']) :
    tokenizeBody operatorMap lx tokens
      = Except.ok ({ lx with pos_ := lx.pos_ + 1 },
          tokens ++ [⟨TokenCode.Error, [c], lx.line_, lx.column_⟩]) := by
  have hi : c ≠ 'i' := by rintro rfl; revert hl; decide
  have he : c ≠ 'e' := by rintro rfl; revert hl; decide
  simp only [List.mem_cons, List.mem_singleton, not_or, List.mem_nil_iff, or_false] at hdelim
  obtain ⟨h1, h2, h3, h4, h5⟩ := hdelim
  unfold tokenizeBody
  simp only [hc, bind, Except.bind, pure, Except.pure, hl, hd, hop, h1, h2, h3, h4, h5, hi, he,
    if_false, Nat.lt_irrefl, gt_iff_lt, Bool.false_eq_true]

theorem tokenize_error_cons (operatorMap : OperatorMap) (c : Char) (rest : Str)
    (hl : isLetter c = false) (hd : isDigit c = false) (hw : isWhitespace c = false)
    (hop : operatorMap.count [c] = 0) (hdelim : c ∉ ['(', ')', ';', '{', '}']) :
    tokenize operatorMap (c :: rest)
      = (tokenize operatorMap rest).map (fun ts => ⟨TokenCode.Error, [c], 1, 1⟩ :: ts) := by
  have hdrop : (Lexer.new (c :: rest)).input_.drop (Lexer.new (c :: rest)).pos_ = c :: rest := rfl
  have hfuel : (Lexer.new (c :: rest)).input_.length - (Lexer.new (c :: rest)).pos_ + 1
      = (rest.length + 1) + 1 := by
    simp [Lexer.new]
  have hfuel2 : (Lexer.new rest).input_.length - (Lexer.new rest).pos_ + 1 = rest.length + 1 := by
    simp [Lexer.new]
  have hpos : (Lexer.new (c :: rest)).pos_ < (Lexer.new (c :: rest)).input_.length := by
    simp [Lexer.new]
  have hstate : ({ Lexer.new (c :: rest) with pos_ := (Lexer.new (c :: rest)).pos_ + 1 } : Lexer)
      = (Lexer.new rest).shift [c] := rfl
  simp only [tokenize, Lexer.tokenize, hfuel, hfuel2]
  rw [tokenizeLoop]
  simp only [hpos, if_true, skipWhitespace_of_drop_cons hdrop hw, ge_iff_le, Nat.not_le.mpr hpos,
    if_false, tokenizeBody_error operatorMap _ [] c (charAt_of_drop_cons hdrop) hl hd hop hdelim,
    hstate, tokenizeLoop_shift]
  rw [tokenizeLoop_tokens]
  cases tokenizeLoop operatorMap (rest.length + 1) (Lexer.new rest) [] with
  | error e => rfl
  | ok r => rfl

/-- C9: for a character `c` that is no letter, digit, blank, tab or newline, no key of the
operator table and none of `( ) ; { }`, the (kind, value) pairs of `tokenize` on `c` followed
by `rest` are `(Error, c)` followed by the pairs of `tokenize` on `rest` (and `tokenize`
fails on the one exactly when it fails on the other). -/
theorem tokenize_error_char (operatorMap : OperatorMap) (c : Char) (rest : Str)
    (hl : isLetter c = false) (hd : isDigit c = false) (hw : isWhitespace c = false)
    (hop : operatorMap.count [c] = 0) (hdelim : c ∉ ['(', ')', ';', '{', '}']) :
    (tokenize operatorMap (c :: rest)).map (List.map Token.kv)
      = (tokenize operatorMap rest).map
          (fun ts => (TokenCode.Error, [c]) :: ts.map Token.kv) := by
  rw [tokenize_error_cons operatorMap c rest hl hd hw hop hdelim]
  cases tokenize operatorMap rest with
  | error e => rfl
  | ok ts => rfl

/-- Scenario 3: with the sample table, `@` alone gives exactly one `Error` token with value
`@`, and in `@x` lexing continues with the identifier. -/
theorem tokenize_error_char_witness :
    (tokenize sampleOperatorMap "@".toList).map (List.map Token.kv)
        = Except.ok [(TokenCode.Error, "@".toList)] ∧
    (tokenize sampleOperatorMap "@x".toList).map (List.map Token.kv)
        = Except.ok [(TokenCode.Error, "@".toList), (TokenCode.Identifier, "x".toList)] :=
  ⟨tokenize_error_char sampleOperatorMap '@' [] rfl rfl rfl rfl (by decide),
   tokenize_error_char sampleOperatorMap '@' ['x'] rfl rfl rfl rfl (by decide)⟩

theorem isDigit_not_isLetter (c : Char) (h : isDigit c = true) : isLetter c = false := by
  simp only [isDigit, isLetter, isdigit, isalpha, Char.isDigit, Char.isAlpha, Char.isUpper,
    Char.isLower, Bool.and_eq_true, decide_eq_true_eq, Bool.or_eq_false_iff,
    Bool.and_eq_false_iff, decide_eq_false_iff_not, UInt32.le_def, BitVec.le_def] at *
  have e1 : (UInt32.toBitVec 48).toNat = 48 := rfl
  have e2 : (UInt32.toBitVec 57).toNat = 57 := rfl
  have e3 : (UInt32.toBitVec 65).toNat = 65 := rfl
  have e4 : (UInt32.toBitVec 90).toNat = 90 := rfl
  have e5 : (UInt32.toBitVec 97).toNat = 97 := rfl
  have e6 : (UInt32.toBitVec 122).toNat = 122 := rfl
  rw [e1, e2] at h
  rw [e3, e4, e5, e6]
  omega

theorem readIdentifierLoop_append :
    ∀ (l r : Str) (pos : Nat) (acc : Str),
      (l.all (fun d => isLetter d || isDigit d) = true) → (r = [] ∨ ∃ r', r = ' ' :: r') →
      readIdentifierLoop (l ++ r) pos acc = (pos + l.length, acc ++ l) := by
  intro l
  induction l with
  | nil =>
    intro r pos acc _ hr
    rcases hr with rfl | ⟨r', rfl⟩
    · simp [readIdentifierLoop]
    · have : (isLetter ' ' || isDigit ' ') = false := by decide
      simp [readIdentifierLoop, this]
  | cons c cs ih =>
    intro r pos acc hl hr
    simp only [List.all_cons, Bool.and_eq_true] at hl
    rw [List.cons_append, readIdentifierLoop]
    simp only [hl.1, if_true]
    rw [ih r (pos + 1) (acc ++ [c]) hl.2 hr]
    simp only [List.length_cons, List.append_assoc, List.singleton_append]
    congr 1; omega

theorem readNumberLoop_append :
    ∀ (l r : Str) (pos : Nat) (acc : Str),
      (l.all isDigit = true) → (r = [] ∨ ∃ r', r = ' ' :: r') →
      readNumberLoop (l ++ r) pos acc = (pos + l.length, acc ++ l) := by
  intro l
  induction l with
  | nil =>
    intro r pos acc _ hr
    rcases hr with rfl | ⟨r', rfl⟩
    · simp [readNumberLoop]
    · have : isDigit ' ' = false := by decide
      simp [readNumberLoop, this]
  | cons c cs ih =>
    intro r pos acc hl hr
    simp only [List.all_cons, Bool.and_eq_true] at hl
    rw [List.cons_append, readNumberLoop]
    simp only [hl.1, if_true]
    rw [ih r (pos + 1) (acc ++ [c]) hl.2 hr]
    simp only [List.length_cons, List.append_assoc, List.singleton_append]
    congr 1; omega

theorem drop_add_of_drop_append {s l r : Str} {i : Nat} (h : s.drop i = l ++ r) :
    s.drop (i + l.length) = r := by
  rw [← List.drop_drop, h, List.drop_left]

theorem charAt_of_drop_end {s r : Str} {i : Nat} (h : s.drop i = r) (hi : i ≤ s.length)
    (hr : r = [] ∨ ∃ r', r = ' ' :: r') : ∃ c, charAt s i = Except.ok c ∧ c ≠ '[' := by
  rcases hr with rfl | ⟨r', rfl⟩
  · have hlen : s.length ≤ i := by
      have := congrArg List.length h
      simp only [List.length_drop, List.length_nil] at this
      omega
    have hi2 : i = s.length := by omega
    refine ⟨'\x00', ?_, by decide⟩
    simp [charAt, hi2]
  · exact ⟨' ', charAt_of_drop_cons h, by decide⟩

theorem isWhitespace_not_isLetter (c : Char) (h : isLetter c = true) : isWhitespace c = false := by
  by_contra hw
  simp only [isWhitespace, Bool.not_eq_false, Bool.or_eq_true, decide_eq_true_eq] at hw
  rcases hw with (rfl | rfl) | rfl <;> revert h <;> decide

theorem isWhitespace_not_isDigit (c : Char) (h : isDigit c = true) : isWhitespace c = false := by
  by_contra hw
  simp only [isWhitespace, Bool.not_eq_false, Bool.or_eq_true, decide_eq_true_eq] at hw
  rcases hw with (rfl | rfl) | rfl <;> revert h <;> decide

theorem lexemeKind_head {operatorMap : OperatorMap} {l : Str} {k : TokenCode}
    (hk : lexemeKind operatorMap l = some k) :
    ∃ c cs, l = c :: cs ∧ isWhitespace c = false := by
  cases l with
  | nil => simp [lexemeKind, isIdentifierText, isNumberText] at hk
  | cons c cs =>
    refine ⟨c, cs, rfl, ?_⟩
    unfold lexemeKind at hk
    by_cases h1 : isIdentifierText (c :: cs) = true
    · simp only [isIdentifierText, Bool.and_eq_true] at h1
      exact isWhitespace_not_isLetter c h1.1
    · by_cases h2 : isNumberText (c :: cs) = true
      · simp only [isNumberText, Bool.and_eq_true] at h2
        exact isWhitespace_not_isDigit c h2.1
      · simp only [h1, h2, if_false] at hk
        cases cs with
        | nil =>
          simp only at hk
          by_cases h3 : operatorMap.count [c] > 0 ∧ isWhitespace c = false
          · exact h3.2
          · simp [h3] at hk
        | cons d ds => simp at hk

theorem tokenizeBody_lexeme (operatorMap : OperatorMap) (lx : Lexer) (tokens : List Token)
    (l r : Str) (k : TokenCode) (hk : lexemeKind operatorMap l = some k)
    (hdrop : lx.input_.drop lx.pos_ = l ++ r) (hr : r = [] ∨ ∃ r', r = ' ' :: r') :
    tokenizeBody operatorMap lx tokens
      = Except.ok ({ lx with pos_ := lx.pos_ + l.length },
          tokens ++ [⟨k, l, lx.line_, lx.column_⟩]) := by
  obtain ⟨c, cs, rfl, hw⟩ := lexemeKind_head hk
  have hc : charAt lx.input_ lx.pos_ = Except.ok c := charAt_of_drop_cons hdrop
  have hlen : lx.pos_ + (c :: cs).length ≤ lx.input_.length := by
    have := congrArg List.length hdrop
    simp only [List.length_drop, List.length_append, List.length_cons] at this
    simp only [List.length_cons]
    omega
  unfold lexemeKind at hk
  unfold tokenizeBody
  simp only [hc, bind, Except.bind, pure, Except.pure]
  by_cases h1 : isIdentifierText (c :: cs) = true
  · simp only [h1, if_true, Option.some.injEq] at hk
    simp only [isIdentifierText, Bool.and_eq_true] at h1
    have hall : (c :: cs).all (fun d => isLetter d || isDigit d) = true := by
      simp only [List.all_cons, h1.1, h1.2, Bool.true_or, Bool.and_self]
    simp only [h1.1, if_true, isLetter_not_sign c h1.1, if_false, readIdentifier, hdrop,
      readIdentifierLoop_append (c :: cs) r lx.pos_ [] hall hr, List.nil_append, ← hk]
  · by_cases h2 : isNumberText (c :: cs) = true
    · simp only [h1, h2, if_true, if_false, Option.some.injEq, Bool.false_eq_true] at hk
      simp only [isNumberText, Bool.and_eq_true] at h2
      have hall : (c :: cs).all isDigit = true := by
        simp only [List.all_cons, h2.1, h2.2, Bool.and_self]
      obtain ⟨c0, hc0, hne⟩ := charAt_of_drop_end (drop_add_of_drop_append hdrop) hlen hr
      simp only [isDigit_not_isLetter c h2.1, h2.1, if_true, if_false, readNumber, hdrop,
        readNumberLoop_append (c :: cs) r lx.pos_ [] hall hr, List.nil_append, hc0, hne, ← hk,
        Bool.false_eq_true]
    · simp only [h1, h2, if_false] at hk
      cases cs with
      | cons d ds => simp at hk
      | nil =>
        simp only at hk
        by_cases h3 : operatorMap.count [c] > 0 ∧ isWhitespace c = false
        · simp only [h3, and_self, if_true, if_false, Option.some.injEq, Bool.false_eq_true] at hk
          have hL : isLetter c = false := by
            simpa [isIdentifierText] using h1
          have hD : isDigit c = false := by
            simpa [isNumberText] using h2
          simp only [hL, hD, h3.1, if_true, if_false, List.length_singleton, ← hk,
            Bool.false_eq_true]
        · simp [h3] at hk

theorem spaced_head (ls : List Str) : spaced ls = [] ∨ ∃ r', spaced ls = ' ' :: r' := by
  cases ls with
  | nil => exact Or.inl rfl
  | cons l ls => exact Or.inr ⟨_, rfl⟩

theorem length_le_spaced (ls : List Str) : ls.length ≤ (spaced ls).length := by
  induction ls with
  | nil => exact Nat.le_refl _
  | cons l ls ih => simp only [spaced, List.length_cons, List.length_append]; omega

theorem pos_lt_of_drop_cons {s : Str} {i : Nat} {c : Char} {r : Str} (h : s.drop i = c :: r) :
    i < s.length := by
  have := congrArg List.length h
  simp only [List.length_drop, List.length_cons] at this
  omega

theorem skipWhitespace_space {lx : Lexer} {c : Char} {r : Str}
    (h : lx.input_.drop lx.pos_ = ' ' :: c :: r) (hw : isWhitespace c = false) :
    skipWhitespace lx = { lx with pos_ := lx.pos_ + 1, column_ := lx.column_ + 1 } := by
  have h1 : isWhitespace ' ' = true := by decide
  have h2 : ¬ (' ' = '\n') := by decide
  simp only [skipWhitespace, h, skipWhitespaceLoop, h1, h2, hw, if_true, if_false,
    Bool.false_eq_true]

theorem tokenizeLoop_spaced (operatorMap : OperatorMap) :
    ∀ (ls : List Str) (ks : List TokenCode), ls.map (lexemeKind operatorMap) = ks.map some →
    ∀ (fuel : Nat) (lx : Lexer) (tokens : List Token),
      lx.input_.drop lx.pos_ = spaced ls → ls.length + 1 ≤ fuel →
      ∃ lx' tokens', tokenizeLoop operatorMap fuel lx tokens = Except.ok (lx', tokens') ∧
        tokens'.map Token.kv = tokens.map Token.kv ++ ks.zip ls := by
  intro ls
  induction ls with
  | nil =>
    intro ks hks fuel lx tokens hdrop hf
    obtain ⟨f, rfl⟩ : ∃ f, fuel = f + 1 := ⟨fuel - 1, by simp at hf; omega⟩
    have hpos : ¬ lx.pos_ < lx.input_.length := by
      have := congrArg List.length hdrop
      simp only [List.length_drop, spaced, List.length_nil] at this
      omega
    refine ⟨lx, tokens, ?_, ?_⟩
    · simp only [tokenizeLoop, hpos, if_false]
    · cases ks with
      | nil => simp
      | cons k ks => simp at hks
  | cons l ls ih =>
    intro ks hks fuel lx tokens hdrop hf
    cases ks with
    | nil => simp at hks
    | cons k ks =>
      simp only [List.map_cons, List.cons.injEq] at hks
      obtain ⟨hk, hks⟩ := hks
      simp only [List.length_cons] at hf
      obtain ⟨f, rfl⟩ : ∃ f, fuel = f + 1 := ⟨fuel - 1, by omega⟩
      obtain ⟨c, cs, rfl, hw⟩ := lexemeKind_head hk
      have hdrop0 : lx.input_.drop lx.pos_ = ' ' :: c :: (cs ++ spaced ls) := hdrop
      have hpos : lx.pos_ < lx.input_.length := pos_lt_of_drop_cons hdrop0
      have hskip := skipWhitespace_space hdrop0 hw
      have hdrop1 : lx.input_.drop (lx.pos_ + 1) = (c :: cs) ++ spaced ls :=
        drop_succ_of_drop_cons hdrop0
      have hpos1 : lx.pos_ + 1 < lx.input_.length :=
        pos_lt_of_drop_cons (c := c) (r := cs ++ spaced ls) hdrop1
      have hbody := tokenizeBody_lexeme operatorMap
        { lx with pos_ := lx.pos_ + 1, column_ := lx.column_ + 1 } tokens (c :: cs) (spaced ls) k hk
        hdrop1 (spaced_head ls)
      have hdrop2 : lx.input_.drop (lx.pos_ + 1 + (c :: cs).length) = spaced ls :=
        drop_add_of_drop_append hdrop1
      obtain ⟨lx', tokens', hloop, hkv⟩ := ih ks hks f
        { lx with pos_ := lx.pos_ + 1 + (c :: cs).length, column_ := lx.column_ + 1 }
        (tokens ++ [⟨k, c :: cs, lx.line_, lx.column_ + 1⟩]) hdrop2 (by omega)
      refine ⟨lx', tokens', ?_, ?_⟩
      · rw [tokenizeLoop]
        simp only [hpos, if_true, hskip, ge_iff_le, Nat.not_le.mpr hpos1, if_false, hbody]
        exact hloop
      · rw [hkv]
        simp [Token.kv]

/-- Run of `tokenize` on lexemes separated by single spaces: it returns tokens, one for each
lexeme. -/
theorem tokenize_joinLexemes (operatorMap : OperatorMap) (ls : List Str) (ks : List TokenCode)
    (hks : ls.map (lexemeKind operatorMap) = ks.map some) :
    ∃ tokens, tokenize operatorMap (joinLexemes ls) = Except.ok tokens ∧
      tokens.map Token.kv = ks.zip ls := by
  cases ls with
  | nil =>
    cases ks with
    | nil => exact ⟨[], rfl, rfl⟩
    | cons k ks => simp at hks
  | cons l ls =>
    cases ks with
    | nil => simp at hks
    | cons k ks =>
      simp only [List.map_cons, List.cons.injEq] at hks
      obtain ⟨hk, hks⟩ := hks
      obtain ⟨c, cs, rfl, hw⟩ := lexemeKind_head hk
      have hdrop : (Lexer.new (joinLexemes ((c :: cs) :: ls))).input_.drop
          (Lexer.new (joinLexemes ((c :: cs) :: ls))).pos_ = (c :: cs) ++ spaced ls := rfl
      have hpos := pos_lt_of_drop_cons (c := c) (r := cs ++ spaced ls) hdrop
      have hbody := tokenizeBody_lexeme operatorMap (Lexer.new (joinLexemes ((c :: cs) :: ls))) []
        (c :: cs) (spaced ls) k hk hdrop (spaced_head ls)
      have hdrop2 := drop_add_of_drop_append hdrop
      have hfuel : ls.length + 1 ≤ (joinLexemes ((c :: cs) :: ls)).length := by
        have := length_le_spaced ls
        simp only [joinLexemes, List.length_append, List.length_cons]
        omega
      obtain ⟨lx', tokens', hloop, hkv⟩ := tokenizeLoop_spaced operatorMap ls ks hks
        (joinLexemes ((c :: cs) :: ls)).length
        { Lexer.new (joinLexemes ((c :: cs) :: ls)) with
          pos_ := (Lexer.new (joinLexemes ((c :: cs) :: ls))).pos_ + (c :: cs).length }
        ([] ++ [⟨k, c :: cs, 1, 1⟩]) hdrop2 hfuel
      have hrun : tokenize operatorMap (joinLexemes ((c :: cs) :: ls)) = Except.ok tokens' := by
        have hf : (Lexer.new (joinLexemes ((c :: cs) :: ls))).input_.length
            - (Lexer.new (joinLexemes ((c :: cs) :: ls))).pos_ + 1
            = (joinLexemes ((c :: cs) :: ls)).length + 1 := rfl
        simp only [tokenize, Lexer.tokenize, hf]
        rw [tokenizeLoop]
        simp only [hpos, if_true, skipWhitespace_of_drop_cons hdrop hw, ge_iff_le,
          Nat.not_le.mpr hpos, if_false, hbody]
        have hloop2 : tokenizeLoop operatorMap (joinLexemes ((c :: cs) :: ls)).length
            { Lexer.new (joinLexemes ((c :: cs) :: ls)) with
              pos_ := (Lexer.new (joinLexemes ((c :: cs) :: ls))).pos_ + (c :: cs).length }
            ([] ++ [⟨k, c :: cs, (Lexer.new (joinLexemes ((c :: cs) :: ls))).line_,
              (Lexer.new (joinLexemes ((c :: cs) :: ls))).column_⟩]) = Except.ok (lx', tokens') :=
          hloop
        rw [hloop2]
        rfl
      refine ⟨tokens', hrun, ?_⟩
      rw [hkv]
      simp [Token.kv]

/-- C1: for lexemes separated by single spaces, each an identifier, a run of digits or one
operator-table character (classes `ks`, read by `lexemeKind`), `tokenize` returns exactly one
token per lexeme, in order, with the lexeme as value and its class as kind. -/
theorem tokenize_lexemes (operatorMap : OperatorMap) (ls : List Str) (ks : List TokenCode)
    (hks : ls.map (lexemeKind operatorMap) = ks.map some) :
    (tokenize operatorMap (joinLexemes ls)).map (List.map Token.kv) = Except.ok (ks.zip ls) := by
  obtain ⟨tokens, hrun, hkv⟩ := tokenize_joinLexemes operatorMap ls ks hks
  rw [hrun]
  simp only [Except.map, hkv]

/-- Scenario 1 with the sample table: the tokens of `x = 2 + 3`. -/
theorem tokenize_lexemes_witness :
    joinLexemes ["x".toList, "=".toList, "2".toList, "+".toList, "3".toList] = "x = 2 + 3".toList ∧
    (tokenize sampleOperatorMap "x = 2 + 3".toList).map (List.map Token.kv)
      = Except.ok [(TokenCode.Identifier, "x".toList), (TokenCode.Operator, "=".toList),
          (TokenCode.Integer, "2".toList), (TokenCode.Operator, "+".toList),
          (TokenCode.Integer, "3".toList)] :=
  ⟨rfl, tokenize_lexemes sampleOperatorMap
    ["x".toList, "=".toList, "2".toList, "+".toList, "3".toList]
    [TokenCode.Identifier, TokenCode.Operator, TokenCode.Integer, TokenCode.Operator,
      TokenCode.Integer] rfl⟩

/-- Scenario 1 for every operator table that maps `=` and `+` to `Operator`. -/
theorem tokenize_scenario1 (operatorMap : OperatorMap)
    (heq : operatorMap.entries.lookup ['='] = some TokenCode.Operator)
    (hplus : operatorMap.entries.lookup ['+'] = some TokenCode.Operator) :
    (tokenize operatorMap "x = 2 + 3".toList).map (List.map Token.kv)
      = Except.ok [(TokenCode.Identifier, "x".toList), (TokenCode.Operator, "=".toList),
          (TokenCode.Integer, "2".toList), (TokenCode.Operator, "+".toList),
          (TokenCode.Integer, "3".toList)] := by
  obtain ⟨tokens, hrun, hkv⟩ := tokenize_joinLexemes operatorMap
    ["x".toList, "=".toList, "2".toList, "+".toList, "3".toList]
    [TokenCode.Identifier, TokenCode.Operator, TokenCode.Integer, TokenCode.Operator,
      TokenCode.Integer]
    (by
      have e1 : lexemeKind operatorMap ['='] = some TokenCode.Operator := by
        have : isIdentifierText ['='] = false := by decide
        have : isNumberText ['='] = false := by decide
        have : isWhitespace '=' = false := by decide
        simp [lexemeKind, OperatorMap.count, OperatorMap.find, heq, *]
      have e2 : lexemeKind operatorMap ['+'] = some TokenCode.Operator := by
        have : isIdentifierText ['+'] = false := by decide
        have : isNumberText ['+'] = false := by decide
        have : isWhitespace '+' = false := by decide
        simp [lexemeKind, OperatorMap.count, OperatorMap.find, hplus, *]
      have e3 : lexemeKind operatorMap ['x'] = some TokenCode.Identifier := rfl
      have e4 : lexemeKind operatorMap ['2'] = some TokenCode.Integer := rfl
      have e5 : lexemeKind operatorMap ['3'] = some TokenCode.Integer := rfl
      show [lexemeKind operatorMap ['x'], lexemeKind operatorMap ['='],
        lexemeKind operatorMap ['2'], lexemeKind operatorMap ['+'],
        lexemeKind operatorMap ['3']] = _
      rw [e1, e2, e3, e4, e5]
      rfl)
  have hrun2 : tokenize operatorMap "x = 2 + 3".toList = Except.ok tokens := hrun
  rw [hrun2]
  simp only [Except.map, hkv]
  rfl

/-! ### Concrete runs -/

/-- C6: whatever the operator table, `tokenize` on a run of twenty nines followed by `[]` ends
with the `std::out_of_range` that `std::stoi` throws; no token sequence is returned. -/
theorem tokenize_array_size_out_of_range (operatorMap : OperatorMap) :
    tokenize operatorMap "99999999999999999999[]".toList = Except.error Fault.outOfRange := by
  rfl

/-- C10: whatever the operator table, the words `if` and `else` standing alone are each
returned as one token of kind `Identifier`, not `Keyword`. -/
theorem tokenize_if_else_identifier (operatorMap : OperatorMap) :
    tokenize operatorMap "if".toList = Except.ok [⟨TokenCode.Identifier, "if".toList, 1, 1⟩] ∧
    tokenize operatorMap "else".toList = Except.ok [⟨TokenCode.Identifier, "else".toList, 1, 1⟩] := by
  exact ⟨rfl, rfl⟩

/-- C18: whatever the operator table, in `ab c` the token `c`, whose first character is in
column 4, is returned with column 2: the column counter has counted the space only. -/
theorem tokenize_column_counts_whitespace (operatorMap : OperatorMap) :
    tokenize operatorMap "ab c".toList
      = Except.ok [⟨TokenCode.Identifier, "ab".toList, 1, 1⟩,
          ⟨TokenCode.Identifier, "c".toList, 1, 2⟩] := by
  rfl

theorem readIdentifierLoop_spec :
    ∀ (l : Str) (pos : Nat) (acc : Str),
      ∃ w r, l = w ++ r ∧ readIdentifierLoop l pos acc = (pos + w.length, acc ++ w) ∧
        (∀ d ∈ w, (isLetter d || isDigit d) = true) ∧
        (∀ c cs, l = c :: cs → (isLetter c || isDigit c) = true → w ≠ []) := by
  intro l
  induction l with
  | nil =>
    intro pos acc
    exact ⟨[], [], rfl, by simp [readIdentifierLoop], by simp, by intro c cs h; cases h⟩
  | cons c cs ih =>
    intro pos acc
    by_cases hc : (isLetter c || isDigit c) = true
    · obtain ⟨w, r, hl, hrun, hall, _⟩ := ih (pos + 1) (acc ++ [c])
      refine ⟨c :: w, r, by rw [hl]; rfl, ?_, ?_, by intro _ _ _ _; simp⟩
      · rw [readIdentifierLoop]
        simp only [hc, if_true, hrun, List.length_cons, List.append_assoc, List.singleton_append]
        congr 1; omega
      · intro d hd
        rcases List.mem_cons.mp hd with rfl | hd
        · exact hc
        · exact hall d hd
    · refine ⟨[], c :: cs, rfl, ?_, by simp, ?_⟩
      · rw [readIdentifierLoop]
        simp only [hc, if_false, List.length_nil, Nat.add_zero, List.append_nil,
          Bool.false_eq_true]
      · intro c' cs' h hc'
        cases h
        exact absurd hc' hc

theorem readNumberLoop_spec :
    ∀ (l : Str) (pos : Nat) (acc : Str),
      ∃ w r, l = w ++ r ∧ readNumberLoop l pos acc = (pos + w.length, acc ++ w) ∧
        (∀ d ∈ w, isDigit d = true) ∧
        (∀ c cs, l = c :: cs → isDigit c = true → w ≠ []) := by
  intro l
  induction l with
  | nil =>
    intro pos acc
    exact ⟨[], [], rfl, by simp [readNumberLoop], by simp, by intro c cs h; cases h⟩
  | cons c cs ih =>
    intro pos acc
    by_cases hc : isDigit c = true
    · obtain ⟨w, r, hl, hrun, hall, _⟩ := ih (pos + 1) (acc ++ [c])
      refine ⟨c :: w, r, by rw [hl]; rfl, ?_, ?_, by intro _ _ _ _; simp⟩
      · rw [readNumberLoop]
        simp only [hc, if_true, hrun, List.length_cons, List.append_assoc, List.singleton_append]
        congr 1; omega
      · intro d hd
        rcases List.mem_cons.mp hd with rfl | hd
        · exact hc
        · exact hall d hd
    · refine ⟨[], c :: cs, rfl, ?_, by simp, ?_⟩
      · rw [readNumberLoop]
        simp only [hc, if_false, List.length_nil, Nat.add_zero, List.append_nil,
          Bool.false_eq_true]
      · intro c' cs' h hc'
        cases h
        exact absurd hc' hc

theorem skipWhitespaceLoop_spec :
    ∀ (l : Str) (pos : Nat) (line column : Int),
      ∃ (k : Nat) (line' column' : Int),
        skipWhitespaceLoop l pos line column = (pos + k, line', column') ∧ k ≤ l.length ∧
        l.filter (fun c => !isWhitespace c) = (l.drop k).filter (fun c => !isWhitespace c) ∧
        (l.drop k = [] ∨ ∃ c r, l.drop k = c :: r ∧ isWhitespace c = false) := by
  intro l
  induction l with
  | nil =>
    intro pos line column
    exact ⟨0, line, column, rfl, Nat.le_refl _, rfl, Or.inl rfl⟩
  | cons c cs ih =>
    intro pos line column
    by_cases hc : isWhitespace c = true
    · by_cases hn : c = '\n'
      · obtain ⟨k, line', column', hrun, hk, hf, hd⟩ := ih (pos + 1) (line + 1) 1
        refine ⟨k + 1, line', column', ?_, by simp only [List.length_cons]; omega, ?_, ?_⟩
        · rw [skipWhitespaceLoop]
          have hnl : isWhitespace '\n' = true := by decide
          simp only [hc, hn, hnl, if_true, hrun, Nat.add_assoc, Nat.add_comm 1 k]
        · simp only [List.filter_cons, hc, Bool.not_true, Bool.false_eq_true, if_false,
            List.drop_succ_cons]
          exact hf
        · simpa only [List.drop_succ_cons] using hd
      · obtain ⟨k, line', column', hrun, hk, hf, hd⟩ := ih (pos + 1) line (column + 1)
        refine ⟨k + 1, line', column', ?_, by simp only [List.length_cons]; omega, ?_, ?_⟩
        · rw [skipWhitespaceLoop]
          simp only [hc, hn, if_true, if_false, hrun, Nat.add_assoc, Nat.add_comm 1 k]
        · simp only [List.filter_cons, hc, Bool.not_true, Bool.false_eq_true, if_false,
            List.drop_succ_cons]
          exact hf
        · simpa only [List.drop_succ_cons] using hd
    · refine ⟨0, line, column, ?_, Nat.zero_le _, rfl, Or.inr ⟨c, cs, rfl, by simpa using hc⟩⟩
      rw [skipWhitespaceLoop]
      simp only [hc, if_false, Nat.add_zero, Bool.false_eq_true]

theorem stoi_ne_fuel (s : Str) : stoi s ≠ Except.error Fault.fuel := by
  unfold stoi
  simp only
  split_ifs <;> simp

theorem charAt_headD {s r : Str} {i : Nat} (h : s.drop i = r) (hi : i ≤ s.length) :
    charAt s i = Except.ok (r.headD '\x00') := by
  cases r with
  | nil =>
    have hlen : s.length ≤ i := by
      have := congrArg List.length h
      simp only [List.length_drop, List.length_nil] at this
      omega
    have hi2 : i = s.length := by omega
    simp [charAt, hi2]
  | cons c r => exact charAt_of_drop_cons h

theorem le_length_of_drop_append {s w r : Str} {i : Nat} (h : s.drop i = w ++ r)
    (hw : w ≠ []) : i + w.length ≤ s.length := by
  have := congrArg List.length h
  simp only [List.length_drop, List.length_append] at this
  have hpos : 0 < w.length := List.length_pos.mpr hw
  omega

theorem tokenizeBody_spec (operatorMap : OperatorMap) (lx : Lexer) (tokens : List Token)
    (c : Char) (rest : Str) (hdrop : lx.input_.drop lx.pos_ = c :: rest) :
    (∃ e, tokenizeBody operatorMap lx tokens = Except.error e ∧ e ≠ Fault.fuel) ∨
    ∃ (consumed r : Str) (new : List Token) (st : List (Str × Int)),
      c :: rest = consumed ++ r ∧ consumed ≠ [] ∧
      tokenizeBody operatorMap lx tokens
        = Except.ok ({ lx with pos_ := lx.pos_ + consumed.length, symbolTable_ := st },
            tokens ++ new) ∧
      (new.map Token.value).flatten = consumed ∧
      (isWhitespace c = false → ∀ d ∈ consumed, isWhitespace d = false) := by
  have hc : charAt lx.input_ lx.pos_ = Except.ok c := charAt_of_drop_cons hdrop
  unfold tokenizeBody
  simp only [hc, bind, Except.bind, pure, Except.pure]
  by_cases hL : isLetter c = true
  · obtain ⟨w, r, hl, hrun, hall, hne⟩ := readIdentifierLoop_spec (c :: rest) lx.pos_ []
    right
    refine ⟨w, r, [⟨TokenCode.Identifier, w, lx.line_, lx.column_⟩], lx.symbolTable_, hl,
      hne c rest rfl (by simp [hL]), ?_, by simp, ?_⟩
    · simp only [hL, if_true, isLetter_not_sign c hL, if_false, readIdentifier, hdrop, hrun,
        List.nil_append]
    · intro _ d hd
      have := hall d hd
      simp only [Bool.or_eq_true] at this
      rcases this with h | h
      · exact isWhitespace_not_isLetter d h
      · exact isWhitespace_not_isDigit d h
  · simp only [hL, if_false, Bool.false_eq_true]
    by_cases hD : isDigit c = true
    · obtain ⟨w, r, hl, hrun, hall, hne⟩ := readNumberLoop_spec (c :: rest) lx.pos_ []
      have hw : w ≠ [] := hne c rest rfl hD
      have hdropw : lx.input_.drop lx.pos_ = w ++ r := hdrop.trans hl
      have hdrop1 : lx.input_.drop (lx.pos_ + w.length) = r := drop_add_of_drop_append hdropw
      have hle : lx.pos_ + w.length ≤ lx.input_.length := le_length_of_drop_append hdropw hw
      have hc0 := charAt_headD hdrop1 hle
      have hws : isWhitespace c = false → ∀ d ∈ w, isWhitespace d = false :=
        fun _ d hd => isWhitespace_not_isDigit d (hall d hd)
      simp only [hD, if_true, readNumber, hdrop, hrun, List.nil_append, hc0]
      have hint : (∃ e, (Except.ok ({ lx with pos_ := lx.pos_ + w.length },
            tokens ++ [⟨TokenCode.Integer, w, lx.line_, lx.column_⟩]) :
              Except Fault (Lexer × List Token)) = Except.error e ∧ e ≠ Fault.fuel) ∨
          ∃ (consumed r : Str) (new : List Token) (st : List (Str × Int)),
            c :: rest = consumed ++ r ∧ consumed ≠ [] ∧
            (Except.ok ({ lx with pos_ := lx.pos_ + w.length },
              tokens ++ [⟨TokenCode.Integer, w, lx.line_, lx.column_⟩]) :
                Except Fault (Lexer × List Token))
              = Except.ok ({ lx with pos_ := lx.pos_ + consumed.length, symbolTable_ := st },
                  tokens ++ new) ∧
            (new.map Token.value).flatten = consumed ∧
            (isWhitespace c = false → ∀ d ∈ consumed, isWhitespace d = false) :=
        Or.inr ⟨w, r, [⟨TokenCode.Integer, w, lx.line_, lx.column_⟩], lx.symbolTable_, hl, hw,
          rfl, by simp, hws⟩
      by_cases h0 : r.headD '\x00' = '['
      · cases r with
        | nil => exact absurd h0 (by decide)
        | cons a r1 =>
          have ha : a = '[' := h0
          subst ha
          have hdrop2 : lx.input_.drop (lx.pos_ + w.length + 1) = r1 :=
            drop_succ_of_drop_cons hdrop1
          have hle2 : lx.pos_ + w.length + 1 ≤ lx.input_.length := pos_lt_of_drop_cons hdrop1
          have hc1 := charAt_headD hdrop2 hle2
          simp only [List.headD_cons, if_true, hc1]
          by_cases h1 : r1.headD '\x00' = ']'
          · cases r1 with
            | nil => exact absurd h1 (by decide)
            | cons b r2 =>
              have hb : b = ']' := h1
              subst hb
              simp only [List.headD_cons, decide_True, if_true]
              cases hs : stoi w with
              | error e =>
                left
                exact ⟨e, rfl, fun he => stoi_ne_fuel w (by rw [hs, he])⟩
              | ok v =>
                right
                refine ⟨w ++ ['[', ']'], r2,
                  [⟨TokenCode.Identifier, w, lx.line_, lx.column_⟩,
                   ⟨TokenCode.Delimiter, ['['], lx.line_, lx.column_⟩,
                   ⟨TokenCode.Delimiter, [']'], lx.line_, lx.column_⟩],
                  (registerArrayIdentifier { lx with pos_ := lx.pos_ + w.length + 2 } w v).symbolTable_,
                  by rw [hl]; simp, by simp, ?_, by simp, ?_⟩
                · simp only [registerArrayIdentifier, List.length_append, List.length_cons,
                    List.length_nil, Nat.add_assoc]
                · intro hcw d hd
                  rcases List.mem_append.mp hd with hd | hd
                  · exact hws hcw d hd
                  · simp only [List.mem_cons, List.mem_singleton, List.not_mem_nil, or_false] at hd
                    rcases hd with rfl | rfl <;> decide
          · simp only [h1, decide_False, Bool.false_eq_true, if_false]
            exact hint
      · simp only [h0, if_false, Bool.false_eq_true]
        exact hint
    · have hone : ∀ (k : TokenCode) (v : Str), v = [c] →
          (∃ e, (Except.ok ({ lx with pos_ := lx.pos_ + 1 },
              tokens ++ [⟨k, v, lx.line_, lx.column_⟩]) :
                Except Fault (Lexer × List Token)) = Except.error e ∧ e ≠ Fault.fuel) ∨
          ∃ (consumed r : Str) (new : List Token) (st : List (Str × Int)),
            c :: rest = consumed ++ r ∧ consumed ≠ [] ∧
            (Except.ok ({ lx with pos_ := lx.pos_ + 1 },
              tokens ++ [⟨k, v, lx.line_, lx.column_⟩]) :
                Except Fault (Lexer × List Token))
              = Except.ok ({ lx with pos_ := lx.pos_ + consumed.length, symbolTable_ := st },
                  tokens ++ new) ∧
            (new.map Token.value).flatten = consumed ∧
            (isWhitespace c = false → ∀ d ∈ consumed, isWhitespace d = false) := by
        intro k v hv
        subst hv
        refine Or.inr ⟨[c], rest, [⟨k, [c], lx.line_, lx.column_⟩], lx.symbolTable_, rfl,
          by simp, rfl, by simp, ?_⟩
        intro hcw d hd
        rw [List.mem_singleton.mp hd]
        exact hcw
      simp only [hD, if_false, Bool.false_eq_true]
      by_cases hO : operatorMap.count [c] > 0
      · simp only [hO, if_true]
        exact hone _ _ rfl
      simp only [hO, if_false]
      by_cases h1 : c = '('
      · simp only [h1, if_true]
        exact h1 ▸ hone _ _ (by rw [h1])
      simp only [h1, if_false]
      by_cases h2 : c = ')'
      · simp only [h2, if_true]
        exact h2 ▸ hone _ _ (by rw [h2])
      simp only [h2, if_false]
      by_cases h3 : c = ';'
      · simp only [h3, if_true]
        exact h3 ▸ hone _ _ (by rw [h3])
      simp only [h3, if_false]
      by_cases h4 : c = '{'
      · simp only [h4, if_true]
        exact h4 ▸ hone _ _ (by rw [h4])
      simp only [h4, if_false]
      by_cases h5 : c = '}'
      · simp only [h5, if_true]
        exact h5 ▸ hone _ _ (by rw [h5])
      simp only [h5, if_false]
      have hi : c ≠ 'i' := by rintro rfl; exact hL (by decide)
      have he : c ≠ 'e' := by rintro rfl; exact hL (by decide)
      simp only [hi, he, if_false, Bool.false_eq_true]
      exact hone _ _ rfl

theorem filter_eq_self_of_not_whitespace (l : Str) (h : ∀ d ∈ l, isWhitespace d = false) :
    l.filter (fun c => !isWhitespace c) = l := by
  rw [List.filter_eq_self]
  intro d hd
  simp [h d hd]

theorem tokenizeLoop_spec (operatorMap : OperatorMap) :
    ∀ (fuel : Nat) (lx : Lexer) (tokens : List Token),
      lx.pos_ ≤ lx.input_.length → lx.input_.length - lx.pos_ + 1 ≤ fuel →
      (∃ e, tokenizeLoop operatorMap fuel lx tokens = Except.error e ∧ e ≠ Fault.fuel) ∨
      ∃ (lx' : Lexer) (new : List Token),
        tokenizeLoop operatorMap fuel lx tokens = Except.ok (lx', tokens ++ new) ∧
        lx'.pos_ = lx.input_.length ∧ lx'.input_ = lx.input_ ∧
        (new.map Token.value).flatten
          = (lx.input_.drop lx.pos_).filter (fun c => !isWhitespace c) := by
  intro fuel
  induction fuel with
  | zero => intro lx tokens _ hf; omega
  | succ f ih =>
    intro lx tokens hle hf
    rw [tokenizeLoop]
    by_cases hlt : lx.pos_ < lx.input_.length
    · simp only [hlt, if_true]
      obtain ⟨k, line', column', hrun, hk, hfil, hd⟩ :=
        skipWhitespaceLoop_spec (lx.input_.drop lx.pos_) lx.pos_ lx.line_ lx.column_
      have hskip : skipWhitespace lx
          = { lx with pos_ := lx.pos_ + k, line_ := line', column_ := column' } := by
        simp only [skipWhitespace, hrun]
      have hkl : lx.pos_ + k ≤ lx.input_.length := by
        simp only [List.length_drop] at hk; omega
      have hdd : lx.input_.drop (lx.pos_ + k) = (lx.input_.drop lx.pos_).drop k := by
        rw [List.drop_drop]
      rw [hskip]
      rcases hd with hnil | ⟨c, r, hcons, hcw⟩
      · have hge : lx.input_.length ≤ lx.pos_ + k := by
          have := congrArg List.length hnil
          simp only [List.length_drop, List.length_nil] at this
          omega
        right
        refine ⟨{ lx with pos_ := lx.pos_ + k, line_ := line', column_ := column' }, [], ?_, ?_,
          rfl, ?_⟩
        · simp only [ge_iff_le, hge, if_true, List.append_nil]
        · show lx.pos_ + k = lx.input_.length
          omega
        · rw [hfil, hnil]; rfl
      · have hdrop1 : lx.input_.drop (lx.pos_ + k) = c :: r := hdd.trans hcons
        have hlt1 : lx.pos_ + k < lx.input_.length := pos_lt_of_drop_cons hdrop1
        simp only [ge_iff_le, Nat.not_le.mpr hlt1, if_false]
        rcases tokenizeBody_spec operatorMap
            { lx with pos_ := lx.pos_ + k, line_ := line', column_ := column' } tokens c r hdrop1
          with ⟨e, he, hne⟩ | ⟨consumed, r', new1, st, hsplit, hcne, hbody, hval, hws⟩
        · left
          exact ⟨e, by rw [he], hne⟩
        · rw [hbody]
          have hcl : 0 < consumed.length := List.length_pos.mpr hcne
          have hdropc : lx.input_.drop (lx.pos_ + k) = consumed ++ r' := hdrop1.trans hsplit
          have hle2 : lx.pos_ + k + consumed.length ≤ lx.input_.length :=
            le_length_of_drop_append hdropc hcne
          have hdrop2 : lx.input_.drop (lx.pos_ + k + consumed.length) = r' :=
            drop_add_of_drop_append hdropc
          have hfuel2 : lx.input_.length - (lx.pos_ + k + consumed.length) + 1 ≤ f := by omega
          rcases ih ⟨lx.input_, lx.pos_ + k + consumed.length, line', column', st⟩
              (tokens ++ new1) hle2 hfuel2
            with ⟨e, he, hne⟩ | ⟨lx', new2, hrun2, hpos2, hinp2, hval2⟩
          · left
            exact ⟨e, he, hne⟩
          · right
            refine ⟨lx', new1 ++ new2, ?_, hpos2, hinp2, ?_⟩
            · rw [← List.append_assoc]; exact hrun2
            · have hval2' : (new2.map Token.value).flatten
                  = r'.filter (fun c => !isWhitespace c) := by
                rw [hval2]
                show (lx.input_.drop (lx.pos_ + k + consumed.length)).filter _ = _
                rw [hdrop2]
              rw [List.map_append, List.flatten_append, hval, hval2', hfil, hcons, hsplit,
                List.filter_append, filter_eq_self_of_not_whitespace consumed (hws hcw)]
    · simp only [hlt, if_false]
      right
      refine ⟨lx, [], by simp, by omega, rfl, ?_⟩
      rw [List.drop_of_length_le (by omega)]
      rfl

theorem tokenizeLoop_fuel_succ (operatorMap : OperatorMap) :
    ∀ (fuel : Nat) (lx : Lexer) (tokens : List Token),
      tokenizeLoop operatorMap fuel lx tokens ≠ Except.error Fault.fuel →
      tokenizeLoop operatorMap (fuel + 1) lx tokens = tokenizeLoop operatorMap fuel lx tokens := by
  intro fuel
  induction fuel with
  | zero => intro lx tokens h; exact absurd rfl h
  | succ f ih =>
    intro lx tokens h
    rw [tokenizeLoop] at h ⊢
    conv => rhs; rw [tokenizeLoop]
    by_cases h1 : lx.pos_ < lx.input_.length
    · simp only [h1, if_true] at h ⊢
      by_cases h2 : (skipWhitespace lx).pos_ ≥ (skipWhitespace lx).input_.length
      · simp only [h2, if_true]
      · simp only [h2, if_false] at h ⊢
        cases hb : tokenizeBody operatorMap (skipWhitespace lx) tokens with
        | error e => rfl
        | ok r =>
          obtain ⟨l, t⟩ := r
          simp only [hb] at h ⊢
          exact ih l t h
    · simp only [h1, if_false]

theorem tokenizeLoop_fuel_le (operatorMap : OperatorMap) (lx : Lexer) (tokens : List Token)
    (n : Nat) (h : tokenizeLoop operatorMap n lx tokens ≠ Except.error Fault.fuel) :
    ∀ (fuel : Nat), n ≤ fuel →
      tokenizeLoop operatorMap fuel lx tokens = tokenizeLoop operatorMap n lx tokens := by
  intro fuel hle
  induction fuel with
  | zero =>
    have : n = 0 := by omega
    rw [this]
  | succ f ih =>
    by_cases hn : n = f + 1
    · rw [hn]
    · have hf := ih (by omega)
      rw [tokenizeLoop_fuel_succ operatorMap f lx tokens (by rw [hf]; exact h), hf]

theorem tokenize_run (operatorMap : OperatorMap) (input : Str) :
    (∃ e, (Lexer.new input).tokenize operatorMap = Except.error e ∧ e ≠ Fault.fuel) ∨
    ∃ (lx' : Lexer) (tokens : List Token),
      (Lexer.new input).tokenize operatorMap = Except.ok (lx', tokens) ∧
      lx'.pos_ = input.length ∧
      (tokens.map Token.value).flatten = input.filter (fun c => !isWhitespace c) := by
  rcases tokenizeLoop_spec operatorMap (input.length + 1) (Lexer.new input) []
      (Nat.zero_le _) (Nat.le_refl _)
    with ⟨e, he, hne⟩ | ⟨lx', new, hrun, hpos, _, hval⟩
  · exact Or.inl ⟨e, he, hne⟩
  · exact Or.inr ⟨lx', new, by simpa using hrun, hpos, hval⟩

/-- C21: `tokenize` ends on every input.  With any budget of at least `size + 1` iterations
the loop gives the result of `tokenize`, which is an exception (of `std::stoi`) or a return
with `pos_` equal to the input length; a pass through the loop body from `pos_` below the
input length ends with `pos_` strictly larger, at most the input length, on the same input;
and `skipWhitespace` moves `pos_` forward only, at most to the input length. -/
theorem tokenize_terminates (operatorMap : OperatorMap) (input : Str) :
    (∀ fuel, input.length + 1 ≤ fuel →
      tokenizeLoop operatorMap fuel (Lexer.new input) []
        = (Lexer.new input).tokenize operatorMap) ∧
    ((∃ e, (Lexer.new input).tokenize operatorMap = Except.error e ∧ e ≠ Fault.fuel) ∨
      ∃ lx' tokens, (Lexer.new input).tokenize operatorMap = Except.ok (lx', tokens) ∧
        lx'.pos_ = input.length) ∧
    (∀ (lx : Lexer) (tokens : List Token) (lx' : Lexer) (tokens' : List Token),
      lx.pos_ < lx.input_.length →
      tokenizeBody operatorMap lx tokens = Except.ok (lx', tokens') →
      lx.pos_ < lx'.pos_ ∧ lx'.pos_ ≤ lx'.input_.length ∧ lx'.input_ = lx.input_) ∧
    (∀ (lx : Lexer), lx.pos_ ≤ lx.input_.length →
      lx.pos_ ≤ (skipWhitespace lx).pos_ ∧ (skipWhitespace lx).pos_ ≤ lx.input_.length ∧
      (skipWhitespace lx).input_ = lx.input_) := by
  have hrun := tokenize_run operatorMap input
  have hnf : (Lexer.new input).tokenize operatorMap ≠ Except.error Fault.fuel := by
    rcases hrun with ⟨e, he, hne⟩ | ⟨lx', tokens, he, _⟩
    · rw [he]; intro h; exact hne (Except.error.inj h)
    · rw [he]; intro h; cases h
  refine ⟨?_, ?_, ?_, ?_⟩
  · intro fuel hf
    exact tokenizeLoop_fuel_le operatorMap (Lexer.new input) [] (input.length + 1) hnf fuel hf
  · rcases hrun with ⟨e, he, hne⟩ | ⟨lx', tokens, he, hpos, _⟩
    · exact Or.inl ⟨e, he, hne⟩
    · exact Or.inr ⟨lx', tokens, he, hpos⟩
  · intro lx tokens lx' tokens' hlt hbody
    obtain ⟨c, rest, hdrop⟩ : ∃ c rest, lx.input_.drop lx.pos_ = c :: rest := by
      cases hd : lx.input_.drop lx.pos_ with
      | nil =>
        have := congrArg List.length hd
        simp only [List.length_drop, List.length_nil] at this
        omega
      | cons c rest => exact ⟨c, rest, rfl⟩
    rcases tokenizeBody_spec operatorMap lx tokens c rest hdrop
      with ⟨e, he, _⟩ | ⟨consumed, r, new, st, hsplit, hcne, hok, _, _⟩
    · rw [he] at hbody; cases hbody
    · rw [hok] at hbody
      have hlx : lx' = { lx with pos_ := lx.pos_ + consumed.length, symbolTable_ := st } :=
        (congrArg Prod.fst (Except.ok.inj hbody)).symm
      have hcl : 0 < consumed.length := List.length_pos.mpr hcne
      have hle := le_length_of_drop_append (hdrop.trans hsplit) hcne
      subst hlx
      exact ⟨by show lx.pos_ < lx.pos_ + consumed.length; omega, hle, rfl⟩
  · intro lx hle
    obtain ⟨k, line', column', hrun, hk, _, _⟩ :=
      skipWhitespaceLoop_spec (lx.input_.drop lx.pos_) lx.pos_ lx.line_ lx.column_
    have hskip : skipWhitespace lx
        = { lx with pos_ := lx.pos_ + k, line_ := line', column_ := column' } := by
      simp only [skipWhitespace, hrun]
    rw [hskip]
    simp only [List.length_drop] at hk
    exact ⟨by show lx.pos_ ≤ lx.pos_ + k; omega, by show lx.pos_ + k ≤ _; omega, rfl⟩

/-- C24: when `tokenize` returns, the values of the tokens, written one after the other, are
the input without its spaces, tabs and newlines. -/
theorem tokenize_values_concat (operatorMap : OperatorMap) (input : Str) (tokens : List Token)
    (h : tokenize operatorMap input = Except.ok tokens) :
    (tokens.map Token.value).flatten = input.filter (fun c => !isWhitespace c) := by
  rcases tokenize_run operatorMap input with ⟨e, he, _⟩ | ⟨lx', tokens', he, _, hval⟩
  · rw [tokenize, he] at h; cases h
  · rw [tokenize, he] at h
    have : tokens' = tokens := Except.ok.inj h
    rw [← this]; exact hval

/-- For the source ` a1 = 12[] @\n;` with the sample table: the token values give
`a1=12[]@;`. -/
theorem tokenize_values_concat_witness :
    ∃ tokens, tokenize sampleOperatorMap " a1 = 12[] @\n;".toList = Except.ok tokens ∧
      (tokens.map Token.value).flatten = "a1=12[]@;".toList :=
  ⟨_, rfl, tokenize_values_concat sampleOperatorMap " a1 = 12[] @\n;".toList _ rfl⟩

end Latexanaly

/-! ## Parser -/

namespace Pareranaly

/-! ### Reading the token vector -/

theorem typeAt_of_drop_cons {tokens : List Token} {i : Nat} {t : Token} {r : List Token}
    (h : tokens.drop i = t :: r) (ty : TokenType) : typeAt tokens i ty = decide (t.type = ty) := by
  have : tokens[i]? = some t := by rw [← List.head?_drop, h]; rfl
  simp [typeAt, this]

theorem typeAt_of_drop_nil {tokens : List Token} {i : Nat}
    (h : tokens.drop i = []) (ty : TokenType) : typeAt tokens i ty = false := by
  have : tokens[i]? = none := by rw [← List.head?_drop, h]; rfl
  simp [typeAt, this]

theorem valueOf_of_drop_cons {tokens : List Token} {i : Nat} {t : Token} {r : List Token}
    (h : tokens.drop i = t :: r) : valueOf tokens i = t.value := by
  have : tokens[i]? = some t := by rw [← List.head?_drop, h]; rfl
  simp [valueOf, this]

theorem valueAt_of_drop_cons {tokens : List Token} {i : Nat} {t : Token} {r : List Token}
    (h : tokens.drop i = t :: r) (v : Str) : valueAt tokens i v = decide (t.value = v) := by
  have : tokens[i]? = some t := by rw [← List.head?_drop, h]; rfl
  simp [valueAt, this]

theorem typeAt_opTokens_delimiter {tokens : List Token} {i : Nat} (ps : List OpOperand)
    (h : tokens.drop i = opTokens ps) : typeAt tokens i TokenType.Delimiter = false := by
  cases ps with
  | nil => exact typeAt_of_drop_nil h _
  | cons p rest => rw [typeAt_of_drop_cons h]; simp

theorem parseTerm_integer {tokens : List Token} {i : Nat} {n : Str} {v : Int} {r : List Token}
    (h : tokens.drop i = ⟨TokenType.Integer, n⟩ :: r) (hv : stoi (unquote n) = Except.ok v)
    (fuel : Nat) : parseTerm tokens (fuel + 1) i = Except.ok (ExprNode.Int v, i + 1) := by
  simp [parseTerm, typeAt_of_drop_cons h, valueOf_of_drop_cons h, hv]

theorem parseExpressionLoop_opTokens (tokens : List Token) :
    ∀ (ps : List OpOperand) (fuel : Nat) (left : ExprNode) (i : Nat),
      (∀ p ∈ ps, stoi (unquote p.intText) = Except.ok p.intValue) →
      tokens.drop i = opTokens ps → ps.length + 1 ≤ fuel →
      parseExpressionLoop tokens fuel left i = Except.ok (foldOps left ps, i + 2 * ps.length) := by
  intro ps
  induction ps with
  | nil =>
    intro fuel left i _ h hf
    obtain ⟨f, rfl⟩ : ∃ f, fuel = f + 1 := ⟨fuel - 1, by simp at hf; omega⟩
    simp [parseExpressionLoop, typeAt_of_drop_nil h, foldOps]
  | cons p rest ih =>
    intro fuel left i hp h hf
    simp only [List.length_cons] at hf
    obtain ⟨f, rfl⟩ : ∃ f, fuel = f + 2 := ⟨fuel - 2, by omega⟩
    have h1 := drop_succ_of_drop_cons h
    have h2 := drop_succ_of_drop_cons h1
    have hv := hp p (List.mem_cons_self _ _)
    rw [parseExpressionLoop]
    simp only [typeAt_of_drop_cons h, valueOf_of_drop_cons h, decide_True, if_true]
    rw [parseTerm_integer h1 hv f]
    simp only [typeAt_opTokens_delimiter rest h2]
    rw [ih (f + 1) _ (i + 1 + 1) (fun q hq => hp q (List.mem_cons_of_mem _ hq)) h2 (by omega)]
    simp [foldOps, List.length_cons]
    omega

theorem parseExpression_operands {tokens : List Token} {i : Nat} {n0 : Str} {v0 : Int}
    {ps : List OpOperand} (h : tokens.drop i = ⟨TokenType.Integer, n0⟩ :: opTokens ps)
    (h0 : stoi (unquote n0) = Except.ok v0)
    (hp : ∀ p ∈ ps, stoi (unquote p.intText) = Except.ok p.intValue)
    (fuel : Nat) (hf : ps.length + 2 ≤ fuel) :
    parseExpression tokens fuel i
      = Except.ok (foldOps (ExprNode.Int v0) ps, i + 1 + 2 * ps.length) := by
  obtain ⟨f, rfl⟩ : ∃ f, fuel = f + 2 := ⟨fuel - 2, by omega⟩
  rw [parseExpression, parseTerm_integer h h0 f]
  exact parseExpressionLoop_opTokens tokens ps (f + 1) _ (i + 1) hp (drop_succ_of_drop_cons h)
    (by omega)

/-- C2: for the tokens `Identifier x`, a token with value `=`, and then
`Integer n0, Operator o1, Integer n1, ..., Operator ok, Integer nk` with every integer text
accepted by `std::stoi`, `parse` returns `Assignment(x, E)` with `E` the left-nested
`BinaryOp` tree of the integers and operators, and has consumed every token. -/
theorem parse_assignment (x : Str) (eqTok : Token) (n0 : Str) (v0 : Int) (ps : List OpOperand)
    (heq : eqTok.value = ['='])
    (h0 : stoi (unquote n0) = Except.ok v0)
    (hp : ∀ p ∈ ps, stoi (unquote p.intText) = Except.ok p.intValue) :
    parse (⟨TokenType.Identifier, x⟩ :: eqTok :: ⟨TokenType.Integer, n0⟩ :: opTokens ps)
      = Except.ok (ExprNode.Assignment x (foldOps (ExprNode.Int v0) ps)) := by
  have hlen : (opTokens ps).length = 2 * ps.length := by
    induction ps with
    | nil => rfl
    | cons p rest ih =>
      simp only [opTokens, List.length_cons, ih (fun q hq => hp q (List.mem_cons_of_mem _ hq))]
      omega
  generalize htoks : (⟨TokenType.Identifier, x⟩ :: eqTok :: ⟨TokenType.Integer, n0⟩ :: opTokens ps
    : List Token) = tokens
  have hd0 : tokens.drop 0 = ⟨TokenType.Identifier, x⟩ :: eqTok :: ⟨TokenType.Integer, n0⟩ :: opTokens ps := by
    rw [← htoks]; rfl
  have hd1 := drop_succ_of_drop_cons hd0
  have hd2 := drop_succ_of_drop_cons hd1
  have hsize : tokens.length = 3 + 2 * ps.length := by
    rw [← htoks]; simp [hlen]; omega
  have hend : tokens.drop (0 + 1 + 1 + 1 + 2 * ps.length) = [] := by
    apply List.drop_of_length_le; omega
  obtain ⟨f, hfuel, hf⟩ : ∃ f, parseFuel tokens = f + 3 ∧ ps.length + 2 ≤ f + 1 :=
    ⟨2 * ps.length + 2, by simp only [parseFuel, hsize]; omega, by omega⟩
  have hinner := parseExpression_operands hd2 h0 hp (f + 1) hf
  simp only [parse, Parser.parse, hfuel]
  rw [parseExpression, parseTerm]
  simp only [typeAt_of_drop_cons hd0, valueOf_of_drop_cons hd0, valueAt_of_drop_cons hd1, heq,
    hinner]
  simp [parseExpressionLoop, typeAt_of_drop_nil hend, Except.map]

/-- Scenario 1: the tokens of `x = 2 + 3` parse to `Assignment("x", BinaryOp('+', 2, 3))`. -/
theorem parse_assignment_witness :
    parse [⟨TokenType.Identifier, "x".toList⟩, ⟨TokenType.Operator, "=".toList⟩,
           ⟨TokenType.Integer, "2".toList⟩, ⟨TokenType.Operator, "+".toList⟩,
           ⟨TokenType.Integer, "3".toList⟩]
      = Except.ok (ExprNode.Assignment "x".toList
          (ExprNode.BinaryOp '+' (ExprNode.Int 2) (ExprNode.Int 3))) :=
  parse_assignment "x".toList ⟨TokenType.Operator, "=".toList⟩ "2".toList 2
    [⟨"+".toList, "3".toList, 3⟩] rfl rfl (by intro p hp; simp only [List.mem_singleton] at hp; subst hp; rfl)

/-! ### Failed sub-parses -/

/-- C7: for the tokens `1 +` the parser returns a `BinaryOp` node whose right child is null:
the failed `parseTerm` after the operator does not make `parse` return null. -/
theorem parse_returns_null_child :
    parse [⟨TokenType.Integer, "1".toList⟩, ⟨TokenType.Operator, "+".toList⟩]
      = Except.ok (ExprNode.BinaryOp '+' (ExprNode.Int 1) ExprNode.null) := by
  rfl

/-- C8: for the tokens `x + 3`, where the name is not followed by `=`, the parser returns a
non-null `BinaryOp` node (with a null left child); for `x 2` and for `x` alone it returns
null. -/
theorem parse_identifier_then_operator :
    parse [⟨TokenType.Identifier, "x".toList⟩, ⟨TokenType.Operator, "+".toList⟩,
           ⟨TokenType.Integer, "3".toList⟩]
      = Except.ok (ExprNode.BinaryOp '+' ExprNode.null (ExprNode.Int 3)) ∧
    parse [⟨TokenType.Identifier, "x".toList⟩, ⟨TokenType.Integer, "2".toList⟩]
      = Except.ok ExprNode.null ∧
    parse [⟨TokenType.Identifier, "x".toList⟩] = Except.ok ExprNode.null := by
  exact ⟨rfl, rfl, rfl⟩

theorem length_opTokens (ps : List OpOperand) : (opTokens ps).length = 2 * ps.length := by
  induction ps with
  | nil => rfl
  | cons p rest ih => simp only [opTokens, List.length_cons, ih]; omega

/-- C11: for the tokens `Integer n0, Operator o1, Integer n1, ..., Operator ok, Integer nk`
(`k ≥ 0`, every integer text accepted by `std::stoi`), `parse` returns the left fold
`BinaryOp(ok, ... BinaryOp(o1, n0, n1) ..., nk)` labelled with the first character of each
operator token, whatever the operators are, and has consumed every token. -/
theorem parse_left_fold (n0 : Str) (v0 : Int) (ps : List OpOperand)
    (h0 : stoi (unquote n0) = Except.ok v0)
    (hp : ∀ p ∈ ps, stoi (unquote p.intText) = Except.ok p.intValue) :
    Parser.parse (⟨TokenType.Integer, n0⟩ :: opTokens ps)
      = Except.ok (foldOps (ExprNode.Int v0) ps, (⟨TokenType.Integer, n0⟩ :: opTokens ps).length) := by
  have hd0 : (⟨TokenType.Integer, n0⟩ :: opTokens ps : List Token).drop 0
      = ⟨TokenType.Integer, n0⟩ :: opTokens ps := rfl
  have hfuel : ps.length + 2 ≤ parseFuel (⟨TokenType.Integer, n0⟩ :: opTokens ps) := by
    simp only [parseFuel, List.length_cons, length_opTokens]; omega
  rw [Parser.parse, parseExpression_operands hd0 h0 hp _ hfuel]
  simp only [List.length_cons, length_opTokens]
  congr 2
  omega

/-- The tokens of `1 + 2 * 3` parse as `(1 + 2) * 3`. -/
theorem parse_left_fold_witness :
    parse [⟨TokenType.Integer, "1".toList⟩, ⟨TokenType.Operator, "+".toList⟩,
           ⟨TokenType.Integer, "2".toList⟩, ⟨TokenType.Operator, "*".toList⟩,
           ⟨TokenType.Integer, "3".toList⟩]
      = Except.ok (ExprNode.BinaryOp '*' (ExprNode.BinaryOp '+' (ExprNode.Int 1) (ExprNode.Int 2))
          (ExprNode.Int 3)) :=
  congrArg (Except.map Prod.fst)
    (parse_left_fold "1".toList 1 [⟨"+".toList, "2".toList, 2⟩, ⟨"*".toList, "3".toList, 3⟩] rfl
      (by
        intro p hp
        simp only [List.mem_cons, List.mem_singleton, List.not_mem_nil, or_false] at hp
        rcases hp with rfl | rfl <;> rfl))

/-- C20: on `Keyword if` followed by a run `A`, a run `B` and `elsePart`, where the call of
`parseExpression` at the start of `A` returns the non-null `a` at the end of `A` and the call
at the start of `B` returns the non-null `b` at the end of `B`:  with `elsePart` empty,
`parseIfStatement` returns `IfElse(condition = b, then = a, else = null)`; with `elsePart`
equal to `Keyword else` followed by `C`, whose call returns the non-null `c`, it returns
`IfElse(condition = b, then = a, else = c)`. -/
theorem parseIfStatement_order (A B elsePart : List Token) (fuel : Nat) (a b : ExprNode)
    (hA : parseExpression (⟨TokenType.Keyword, "if".toList⟩ :: (A ++ B ++ elsePart)) fuel 1
      = Except.ok (a, 1 + A.length))
    (ha : a ≠ ExprNode.null)
    (hB : parseExpression (⟨TokenType.Keyword, "if".toList⟩ :: (A ++ B ++ elsePart)) fuel
        (1 + A.length) = Except.ok (b, 1 + A.length + B.length))
    (hb : b ≠ ExprNode.null) :
    (elsePart = [] →
      parseIfStatement (⟨TokenType.Keyword, "if".toList⟩ :: (A ++ B ++ elsePart)) fuel 0
        = Except.ok (ExprNode.IfElse b a ExprNode.null, 1 + A.length + B.length)) ∧
    (∀ (C : List Token) (c : ExprNode) (i : Nat),
      elsePart = ⟨TokenType.Keyword, "else".toList⟩ :: C →
      parseExpression (⟨TokenType.Keyword, "if".toList⟩ :: (A ++ B ++ elsePart)) fuel
        (1 + A.length + B.length + 1) = Except.ok (c, i) →
      c ≠ ExprNode.null →
      parseIfStatement (⟨TokenType.Keyword, "if".toList⟩ :: (A ++ B ++ elsePart)) fuel 0
        = Except.ok (ExprNode.IfElse b a c, i)) := by
  generalize htoks : (⟨TokenType.Keyword, "if".toList⟩ :: (A ++ B ++ elsePart) : List Token)
    = tokens at hA hB
  have hd0 : tokens.drop 0 = ⟨TokenType.Keyword, "if".toList⟩ :: (A ++ B ++ elsePart) := by
    rw [← htoks]; rfl
  have hd2 : tokens.drop (1 + A.length + B.length) = elsePart := by
    rw [← htoks, Nat.add_assoc, Nat.add_comm 1, List.drop_succ_cons, ← List.length_append,
      List.drop_left]
  have h01 : (0 : Nat) + 1 = 1 := rfl
  constructor
  · intro he
    subst he
    simp only [parseIfStatement, typeAt_of_drop_cons hd0, valueAt_of_drop_cons hd0, h01, hA, ha,
      hB, hb, typeAt_of_drop_nil hd2, decide_True, and_self, if_true, if_false,
      Bool.false_eq_true, false_and]
  · intro C c i he hC hc
    subst he
    simp only [parseIfStatement, typeAt_of_drop_cons hd0, valueAt_of_drop_cons hd0, h01, hA, ha,
      hB, hb, typeAt_of_drop_cons hd2, valueAt_of_drop_cons hd2, hC, hc, decide_True, and_self,
      if_true, if_false]

/-- The tokens `if 1 2` give `IfElse(condition = 2, then = 1, else = null)`, and
`if 1 2 else 3` gives `IfElse(condition = 2, then = 1, else = 3)`. -/
theorem parseIfStatement_order_witness :
    parseIfStatement [⟨TokenType.Keyword, "if".toList⟩, ⟨TokenType.Integer, "1".toList⟩,
        ⟨TokenType.Integer, "2".toList⟩] 5 0
      = Except.ok (ExprNode.IfElse (ExprNode.Int 2) (ExprNode.Int 1) ExprNode.null, 3) ∧
    parseIfStatement [⟨TokenType.Keyword, "if".toList⟩, ⟨TokenType.Integer, "1".toList⟩,
        ⟨TokenType.Integer, "2".toList⟩, ⟨TokenType.Keyword, "else".toList⟩,
        ⟨TokenType.Integer, "3".toList⟩] 7 0
      = Except.ok (ExprNode.IfElse (ExprNode.Int 2) (ExprNode.Int 1) (ExprNode.Int 3), 5) :=
  ⟨(parseIfStatement_order [⟨TokenType.Integer, "1".toList⟩] [⟨TokenType.Integer, "2".toList⟩] []
      5 (ExprNode.Int 1) (ExprNode.Int 2) rfl (by decide) rfl (by decide)).1 rfl,
   (parseIfStatement_order [⟨TokenType.Integer, "1".toList⟩] [⟨TokenType.Integer, "2".toList⟩]
      [⟨TokenType.Keyword, "else".toList⟩, ⟨TokenType.Integer, "3".toList⟩]
      7 (ExprNode.Int 1) (ExprNode.Int 2) rfl (by decide) rfl (by decide)).2
      [⟨TokenType.Integer, "3".toList⟩] (ExprNode.Int 3) 5 rfl rfl (by decide)⟩

theorem getlinesFrom_line :
    ∀ (l cur rest : Str), (∀ c ∈ l, c ≠ '\n') →
      getlinesFrom (l ++ '\n' :: rest) cur = (cur ++ l) :: getlinesFrom rest [] := by
  intro l
  induction l with
  | nil => intro cur rest _; simp [getlinesFrom]
  | cons c l ih =>
    intro cur rest h
    have hc : c ≠ '\n' := h c (List.mem_cons_self _ _)
    rw [List.cons_append, getlinesFrom]
    simp only [hc, if_false]
    rw [ih _ _ (fun d hd => h d (List.mem_cons_of_mem _ hd))]
    simp

theorem isspace_newline_free (v : Str) (hv : v.all (fun c => !isspace c) = true) :
    ∀ c ∈ v, c ≠ '\n' := by
  intro c hc
  simp only [List.all_eq_true, Bool.not_eq_true'] at hv
  rintro rfl
  exact absurd (hv _ hc) (by decide)

theorem tokenLine_newline_free (t : Latexanaly.Token)
    (hv : t.value.all (fun c => !isspace c) = true) : ∀ c ∈ Latexanaly.tokenLine t, c ≠ '\n' := by
  intro c hc
  simp only [Latexanaly.tokenLine, List.mem_append] at hc
  rcases hc with (((hc | hc) | hc) | hc) | hc
  · revert c; decide
  · revert c; cases t.code <;> decide
  · revert c; decide
  · exact isspace_newline_free _ hv c hc
  · revert c; decide

theorem getlinesFrom_writeTokens :
    ∀ (ts : List Latexanaly.Token), (∀ t ∈ ts, t.value.all (fun c => !isspace c) = true) →
      getlinesFrom (Latexanaly.writeTokens ts) [] = ts.map Latexanaly.tokenLine := by
  intro ts
  induction ts with
  | nil => intro _; rfl
  | cons t ts ih =>
    intro h
    have ht := h t (List.mem_cons_self _ _)
    have e : Latexanaly.writeTokens (t :: ts)
        = Latexanaly.tokenLine t ++ '\n' :: Latexanaly.writeTokens ts := by
      simp [Latexanaly.writeTokens]
    rw [e, getlinesFrom_line _ _ _ (tokenLine_newline_free t ht),
      ih (fun u hu => h u (List.mem_cons_of_mem _ hu))]
    simp

theorem readWord_tokenLine (t : Latexanaly.Token) :
    readWord (Latexanaly.tokenLine t)
      = ("TokenType::".toList ++ Latexanaly.kindName t.code,
          ' ' :: ',' :: '"' :: (t.value ++ ['"', ' '])) := by
  obtain ⟨k, v, l, c⟩ := t
  cases k <;> rfl

theorem takeWhile_value (v : Str) (hv : v.all (fun c => !isspace c) = true) :
    (v ++ ['"', ' ']).takeWhile (fun c => !isspace c) = v ++ ['"'] := by
  induction v with
  | nil => rfl
  | cons c v ih =>
    simp only [List.all_cons, Bool.and_eq_true] at hv
    simp only [List.cons_append, List.takeWhile_cons, hv.1, if_true, ih hv.2]

theorem readWord_value (v : Str) (hv : v.all (fun c => !isspace c) = true) :
    (readWord (' ' :: ',' :: '"' :: (v ++ ['"', ' ']))).1 = ',' :: '"' :: (v ++ ['"']) := by
  have h : readWord (' ' :: ',' :: '"' :: (v ++ ['"', ' '])) =
      (',' :: '"' :: (v ++ ['"', ' ']).takeWhile (fun c => !isspace c),
       (v ++ ['"', ' ']).dropWhile (fun c => !isspace c)) := rfl
  rw [h, takeWhile_value v hv]

theorem decodeType_kindName (k : Latexanaly.TokenCode) :
    decodeType ("TokenType::".toList ++ Latexanaly.kindName k) = Except.ok (readKind k) := by
  cases k <;> rfl

theorem findLastFrom_snoc (c : Char) :
    ∀ (l : Str) (i best : Nat), findLastFrom c (l ++ [c]) i best = i + l.length := by
  intro l
  induction l with
  | nil => intro i best; simp [findLastFrom]
  | cons d l ih =>
    intro i best
    rw [List.cons_append, findLastFrom, ih]
    simp only [List.length_cons]
    omega

theorem decodeValue_quoted (v : Str) (hlen : v.length < 2 ^ 64) :
    decodeValue (',' :: '"' :: (v ++ ['"'])) = Except.ok v := by
  have hfind : find (',' :: '"' :: (v ++ ['"'])) ['"'] = 1 := rfl
  have hlast : find_last_of (',' :: '"' :: (v ++ ['"'])) '"' = 2 + v.length := by
    have h : find_last_of (',' :: '"' :: (v ++ ['"'])) '"' = findLastFrom '"' (v ++ ['"']) 2 1 := rfl
    rw [h, findLastFrom_snoc]
  have hstart : sizeAdd 1 1 = 2 := rfl
  have hsub : sizeSub (2 + v.length) 2 = v.length := by
    simp only [sizeSub]
    omega
  have hnot : ¬ 2 > (',' :: '"' :: (v ++ ['"'])).length := by
    simp only [List.length_cons]; omega
  simp only [decodeValue, hfind, hlast, hstart, hsub, substr, hnot, if_false]
  simp

theorem decodeLine_of_words (line w1 r w2 : Str) (ty : Option TokenType) (v : Str)
    (h1 : readWord line = (w1, r)) (h2 : (readWord r).1 = w2)
    (h3 : decodeType w1 = Except.ok ty) (h4 : decodeValue w2 = Except.ok v) :
    decodeLine line = Except.ok (ty.map (fun type => (⟨type, v⟩ : Token))) := by
  unfold decodeLine
  rw [h1]
  show (match decodeType w1 with
    | Except.error e => Except.error e
    | Except.ok none => Except.ok none
    | Except.ok (some type) =>
      match decodeValue (readWord r).1 with
      | Except.error e => Except.error e
      | Except.ok tokenValue => Except.ok (some (⟨type, tokenValue⟩ : Token))) = _
  rw [h3, h2, h4]
  cases ty <;> rfl

theorem decodeLine_tokenLine (t : Latexanaly.Token)
    (hv : t.value.all (fun c => !isspace c) = true) (hlen : t.value.length < 2 ^ 64) :
    decodeLine (Latexanaly.tokenLine t) = Except.ok (readBack t) :=
  decodeLine_of_words _ _ _ _ _ _ (readWord_tokenLine t) (readWord_value t.value hv)
    (decodeType_kindName t.code) (decodeValue_quoted t.value hlen)

theorem decodeLines_tokenLines :
    ∀ (ts : List Latexanaly.Token) (tokens : List Token),
      (∀ t ∈ ts, t.value.all (fun c => !isspace c) = true ∧ t.value.length < 2 ^ 64) →
      decodeLines (ts.map Latexanaly.tokenLine) tokens
        = Except.ok (tokens ++ ts.filterMap readBack) := by
  intro ts
  induction ts with
  | nil => intro tokens _; simp [decodeLines]
  | cons t ts ih =>
    intro tokens h
    obtain ⟨hv, hlen⟩ := h t (List.mem_cons_self _ _)
    have ih2 := fun acc => ih acc (fun u hu => h u (List.mem_cons_of_mem _ hu))
    rw [List.map_cons, decodeLines, decodeLine_tokenLine t hv hlen]
    cases hb : readBack t with
    | none => simp only [ih2, List.filterMap_cons, hb]
    | some p => simp only [ih2, List.filterMap_cons, hb, List.append_assoc, List.singleton_append]

/-- C19 (as stated, at a concrete input): the file written for the single token
`(Error, "@")` is read back as the empty token sequence: the reader skips the line. -/
theorem token_file_drops_error :
    readTokensFromFile (Latexanaly.writeTokens [⟨Latexanaly.TokenCode.Error, "@".toList, 1, 1⟩])
      = Except.ok [] := by
  rfl

/-- C19 (amended): for tokens whose values hold no white space (and fit a `std::string`), the
file `main` of the lexer writes is read back by `readTokensFromFile` as the tokens of kind
`Integer`, `Operator`, `Keyword`, `Identifier` and `Delimiter`, in order, each with its kind
and value; the tokens of the other kinds (`Error`, `Print`, `StringLiteral`) are skipped. -/
theorem token_file_roundtrip (ts : List Latexanaly.Token)
    (h : ∀ t ∈ ts, t.value.all (fun c => !isspace c) = true ∧ t.value.length < 2 ^ 64) :
    readTokensFromFile (Latexanaly.writeTokens ts) = Except.ok (ts.filterMap readBack) := by
  rw [readTokensFromFile, getlinesFrom_writeTokens ts (fun t ht => (h t ht).1),
    decodeLines_tokenLines ts [] h, List.nil_append]

/-- The tokens of `x @ = 2` written and read back: `x`, `=`, `2`. -/
theorem token_file_roundtrip_witness :
    readTokensFromFile (Latexanaly.writeTokens
        [⟨Latexanaly.TokenCode.Identifier, "x".toList, 1, 1⟩,
         ⟨Latexanaly.TokenCode.Error, "@".toList, 1, 2⟩,
         ⟨Latexanaly.TokenCode.Operator, "=".toList, 1, 3⟩,
         ⟨Latexanaly.TokenCode.Integer, "2".toList, 1, 4⟩])
      = Except.ok [⟨TokenType.Identifier, "x".toList⟩, ⟨TokenType.Operator, "=".toList⟩,
          ⟨TokenType.Integer, "2".toList⟩] :=
  token_file_roundtrip _ (by
    intro t ht
    simp only [List.mem_cons, List.mem_singleton, List.not_mem_nil, or_false] at ht
    rcases ht with rfl | rfl | rfl | rfl <;> exact ⟨rfl, by decide⟩)

theorem lt_length_of_typeAt {tokens : List Token} {i : Nat} {ty : TokenType}
    (h : typeAt tokens i ty = true) : i < tokens.length := by
  unfold typeAt at h
  by_contra hn
  rw [List.get?_eq_getElem?, List.getElem?_eq_none (by omega)] at h
  exact Bool.noConfusion h

theorem lt_length_of_valueAt {tokens : List Token} {i : Nat} {v : Str}
    (h : valueAt tokens i v = true) : i < tokens.length := by
  unfold valueAt at h
  by_contra hn
  rw [List.get?_eq_getElem?, List.getElem?_eq_none (by omega)] at h
  exact Bool.noConfusion h

theorem parser_total (tokens : List Token) :
    ∀ (fuel : Nat),
      (∀ i, tokens.length - i + 1 ≤ fuel →
        ∃ r i', parseTerm tokens fuel i = Except.ok (r, i') ∧ i ≤ i' ∧ noIfElse r = true) ∧
      (∀ i left, tokens.length - i + 1 ≤ fuel → noIfElse left = true →
        ∃ r i', parseExpressionLoop tokens fuel left i = Except.ok (r, i') ∧ i ≤ i' ∧
          noIfElse r = true) ∧
      (∀ i, tokens.length - i + 2 ≤ fuel →
        ∃ r i', parseExpression tokens fuel i = Except.ok (r, i') ∧ i ≤ i' ∧
          noIfElse r = true) := by
  intro fuel
  induction fuel with
  | zero =>
    refine ⟨?_, ?_, ?_⟩
    · intro i h; omega
    · intro i left h; omega
    · intro i h; omega
  | succ f ih =>
    obtain ⟨ihT, ihL, ihE⟩ := ih
    refine ⟨?_, ?_, ?_⟩
    · intro i hf
      rw [parseTerm]
      by_cases h1 : typeAt tokens i TokenType.Integer = true
      · simp only [h1, if_true]
        cases stoi (unquote (valueOf tokens i)) with
        | error e => exact ⟨ExprNode.null, i, rfl, Nat.le_refl _, rfl⟩
        | ok v => exact ⟨ExprNode.Int v, i + 1, rfl, Nat.le_succ _, rfl⟩
      · simp only [h1, if_false, Bool.false_eq_true]
        by_cases h2 : typeAt tokens i TokenType.Identifier = true
        · simp only [h2, if_true]
          by_cases h3 : valueAt tokens (i + 1) ['='] = true
          · simp only [h3, if_true]
            have hlt := lt_length_of_valueAt h3
            obtain ⟨r, i', hE, hle, hno⟩ := ihE (i + 1 + 1) (by omega)
            rw [hE]
            exact ⟨ExprNode.Assignment (valueOf tokens i) r, i', rfl, by omega, hno⟩
          · simp only [h3, if_false, Bool.false_eq_true]
            exact ⟨ExprNode.null, i + 1, rfl, Nat.le_succ _, rfl⟩
        · simp only [h2, if_false, Bool.false_eq_true]
          exact ⟨ExprNode.null, i, rfl, Nat.le_refl _, rfl⟩
    · intro i left hf hleft
      rw [parseExpressionLoop]
      by_cases h1 : typeAt tokens i TokenType.Operator = true
      · simp only [h1, if_true]
        have hlt := lt_length_of_typeAt h1
        obtain ⟨right, i1, hT, hle1, hnoR⟩ := ihT (i + 1) (by omega)
        rw [hT]
        simp only
        have hno : noIfElse (ExprNode.BinaryOp ((valueOf tokens i).headD '\x00') left right)
            = true := by
          simp only [noIfElse, hleft, hnoR, Bool.and_self]
        by_cases h2 : typeAt tokens i1 TokenType.Delimiter = true
        · simp only [h2, if_true]
          exact ⟨_, i1 + 1, rfl, by omega, hno⟩
        · simp only [h2, if_false, Bool.false_eq_true]
          obtain ⟨r, i', hL, hle2, hnoL⟩ := ihL i1 _ (by omega) hno
          exact ⟨r, i', hL, by omega, hnoL⟩
      · simp only [h1, if_false, Bool.false_eq_true]
        exact ⟨left, i, rfl, Nat.le_refl _, hleft⟩
    · intro i hf
      rw [parseExpression]
      obtain ⟨left, i1, hT, hle1, hnoT⟩ := ihT i (by omega)
      rw [hT]
      simp only
      obtain ⟨r, i', hL, hle2, hnoL⟩ := ihL i1 left (by omega) hnoT
      exact ⟨r, i', hL, by omega, hnoL⟩

/-- C25: for every token stream `parse` returns, and what it returns holds no `IfElse` node at
any depth; for a stream whose first token is of kind `Keyword` it returns null with
`currentIndex` still 0. -/
theorem parse_no_ifElse (tokens : List Token) :
    (∃ ast i, Parser.parse tokens = Except.ok (ast, i) ∧ noIfElse ast = true) ∧
    (∀ (t : Token) (rest : List Token), tokens = t :: rest → t.type = TokenType.Keyword →
      Parser.parse tokens = Except.ok (ExprNode.null, 0)) := by
  constructor
  · obtain ⟨r, i', h, _, hno⟩ := (parser_total tokens (parseFuel tokens)).2.2 0
      (by simp only [parseFuel]; omega)
    exact ⟨r, i', h, hno⟩
  · intro t rest htok hkw
    have hd0 : tokens.drop 0 = t :: rest := by rw [htok]; rfl
    have hfuel : parseFuel tokens = rest.length + 1 + 1 + 1 := by
      simp only [parseFuel, htok, List.length_cons]
    have hI : typeAt tokens 0 TokenType.Integer = false := by
      rw [typeAt_of_drop_cons hd0, hkw]; rfl
    have hId : typeAt tokens 0 TokenType.Identifier = false := by
      rw [typeAt_of_drop_cons hd0, hkw]; rfl
    have hOp : typeAt tokens 0 TokenType.Operator = false := by
      rw [typeAt_of_drop_cons hd0, hkw]; rfl
    rw [Parser.parse, hfuel, parseExpression, parseTerm]
    simp only [hI, hId, Bool.false_eq_true, if_false]
    rw [parseExpressionLoop]
    simp only [hOp, Bool.false_eq_true, if_false]

/-- The tokens `if 1 2`: `parse` returns null at index 0. -/
theorem parse_no_ifElse_keyword_example :
    Parser.parse [⟨TokenType.Keyword, "if".toList⟩, ⟨TokenType.Integer, "1".toList⟩,
        ⟨TokenType.Integer, "2".toList⟩] = Except.ok (ExprNode.null, 0) :=
  rfl

end Pareranaly

/-! ## Lowering: statements about `generateCode` -/

namespace ReversePolish

/-- C3: the code of `AssignmentExprNode(x, e)` is the code of `e`, then a space, the name `x`,
a space and `=` (and fails exactly when the code of `e` does); the tree
`Assignment("x", BinaryOp('+', IntLiteral(2), IntLiteral(3)))` lowers to `2 3 + x =`. -/
theorem generateCode_assignment :
    (∀ (x : Str) (e : ASTNode),
      (ASTNode.Assignment x e).generateCode
        = e.generateCode.map (fun code => code ++ [' '] ++ x ++ [' ', '='])) ∧
    (ASTNode.Assignment "x".toList
        (ASTNode.BinaryOp '+' (ASTNode.Int 2) (ASTNode.Int 3))).generateCode
      = Except.ok "2 3 + x =".toList := by
  refine ⟨?_, rfl⟩
  intro x e
  cases h : e.generateCode <;> simp [ASTNode.generateCode, h, Except.map, bind, Except.bind, pure, Except.pure]

theorem wordsFrom_append_space :
    ∀ (a cur b : Str), wordsFrom (a ++ ' ' :: b) cur = wordsFrom a cur ++ wordsFrom b [] := by
  intro a
  induction a with
  | nil =>
    intro cur b
    by_cases h : cur = [] <;> simp [wordsFrom, h]
  | cons c a ih =>
    intro cur b
    rw [List.cons_append, wordsFrom, wordsFrom]
    by_cases hc : c = ' '
    · by_cases h : cur = [] <;> simp [hc, h, ih]
    · simp only [hc, if_false, ih]

theorem words_append_space (a b : Str) : words (a ++ ' ' :: b) = words a ++ words b :=
  wordsFrom_append_space a [] b

theorem wordsFrom_no_space :
    ∀ (w cur : Str), (∀ c ∈ w, c ≠ ' ') → cur ++ w ≠ [] → wordsFrom w cur = [cur ++ w] := by
  intro w
  induction w with
  | nil =>
    intro cur _ h
    simp only [List.append_nil] at h
    simp [wordsFrom, h]
  | cons c w ih =>
    intro cur hw _
    have hc : c ≠ ' ' := hw c (List.mem_cons_self _ _)
    rw [wordsFrom]
    simp only [hc, if_false]
    rw [ih (cur ++ [c]) (fun d hd => hw d (List.mem_cons_of_mem _ hd)) (by simp)]
    simp

theorem words_no_space (w : Str) (hw : ∀ c ∈ w, c ≠ ' ') (hne : w ≠ []) : words w = [w] := by
  have := wordsFrom_no_space w [] hw (by simpa using hne)
  simpa [words] using this

/-- C12: when the code of `L` is `cl` and the code of `R` is `cr`, the code of
`BinaryOpExprNode(op, L, R)` is `cl`, a space, `cr`, a space and `op`; and for `op` other than
the space its token list is the token list of `cl`, then that of `cr`, then the token `op`. -/
theorem generateCode_binaryOp (op : Char) (L R : ASTNode) (cl cr : Str)
    (hL : L.generateCode = Except.ok cl) (hR : R.generateCode = Except.ok cr) (hop : op ≠ ' ') :
    (ASTNode.BinaryOp op L R).generateCode = Except.ok (cl ++ [' '] ++ cr ++ [' '] ++ [op]) ∧
    words (cl ++ [' '] ++ cr ++ [' '] ++ [op]) = words cl ++ words cr ++ [[op]] := by
  constructor
  · simp [ASTNode.generateCode, hL, hR, bind, Except.bind, pure, Except.pure]
  · have e : cl ++ [' '] ++ cr ++ [' '] ++ [op] = cl ++ ' ' :: (cr ++ ' ' :: [op]) := by simp
    rw [e, words_append_space, words_append_space,
      words_no_space [op] (by simpa using hop) (by simp), List.append_assoc]

/-- For `2 + 3`: the code is `2 3 +` and its tokens are `2`, `3`, `+`. -/
theorem generateCode_binaryOp_witness :
    (ASTNode.BinaryOp '+' (ASTNode.Int 2) (ASTNode.Int 3)).generateCode
      = Except.ok "2 3 +".toList ∧
    words "2 3 +".toList = ["2".toList, "3".toList, "+".toList] :=
  generateCode_binaryOp '+' (ASTNode.Int 2) (ASTNode.Int 3) "2".toList "3".toList rfl rfl
    (by decide)

theorem digitChar_isdigit (k : Nat) (h : k < 10) : isdigit (Nat.digitChar k) = true := by
  interval_cases k <;> rfl

theorem toDigitsCore_isdigit :
    ∀ (fuel n : Nat) (ds : List Char), (∀ c ∈ ds, isdigit c = true) →
      ∀ c ∈ Nat.toDigitsCore 10 fuel n ds, isdigit c = true := by
  intro fuel
  induction fuel with
  | zero => intro n ds h; simpa [Nat.toDigitsCore] using h
  | succ f ih =>
    intro n ds h
    have hd : isdigit (Nat.digitChar (n % 10)) = true := digitChar_isdigit _ (Nat.mod_lt _ (by omega))
    have hcons : ∀ c ∈ Nat.digitChar (n % 10) :: ds, isdigit c = true := by
      intro c hc
      rcases List.mem_cons.mp hc with rfl | hc
      · exact hd
      · exact h c hc
    simp only [Nat.toDigitsCore]
    split_ifs
    · exact hcons
    · exact ih _ _ hcons

theorem toDigitsCore_ne_nil :
    ∀ (fuel n : Nat) (ds : List Char), (ds ≠ [] ∨ 0 < fuel) →
      Nat.toDigitsCore 10 fuel n ds ≠ [] := by
  intro fuel
  induction fuel with
  | zero =>
    intro n ds h
    rcases h with h | h
    · simpa [Nat.toDigitsCore] using h
    · omega
  | succ f ih =>
    intro n ds _
    simp only [Nat.toDigitsCore]
    split_ifs
    · simp
    · exact ih _ _ (Or.inl (by simp))

theorem to_string_digits (v : Int) (hv : 0 ≤ v) :
    (∀ c ∈ to_string v, isdigit c = true) ∧ to_string v ≠ [] := by
  obtain ⟨n, rfl⟩ := Int.eq_ofNat_of_zero_le hv
  exact ⟨toDigitsCore_isdigit _ _ _ (by simp), toDigitsCore_ne_nil _ _ _ (Or.inr (by omega))⟩

theorem isdigit_ne_space (c : Char) (h : isdigit c = true) : c ≠ ' ' := by
  rintro rfl; revert h; decide

theorem isdigit_not_isOperator (c : Char) (h : isdigit c = true) : isOperator c = false := by
  by_contra ho
  simp only [isOperator, Bool.not_eq_false, Bool.or_eq_true, decide_eq_true_eq] at ho
  rcases ho with ((rfl | rfl) | rfl) | rfl <;> revert h <;> decide

theorem isOperator_not_isdigit (c : Char) (h : isOperator c = true) : isdigit c = false := by
  by_contra hd
  simp only [Bool.not_eq_false] at hd
  rw [isdigit_not_isOperator c hd] at h
  exact Bool.noConfusion h

theorem isIntegerToken_digits (w : Str) (hw : ∀ c ∈ w, isdigit c = true) (hne : w ≠ []) :
    isIntegerToken w = true ∧ isOperatorToken w = false := by
  cases w with
  | nil => exact absurd rfl hne
  | cons c cs =>
    have hc := hw c (List.mem_cons_self _ _)
    constructor
    · simp only [isIntegerToken, hc, Bool.true_and, List.all_eq_true]
      exact fun d hd => hw d (List.mem_cons_of_mem _ hd)
    · cases cs with
      | nil => simpa [isOperatorToken] using isdigit_not_isOperator c hc
      | cons d ds => rfl

theorem balanced_single (w : Str) (hi : isIntegerToken w = true) (ho : isOperatorToken w = false) :
    Balanced [w] := by
  constructor
  · simp [List.countP_cons, hi, ho]
  · intro n hn hle
    simp only [List.length_singleton] at hle
    have : n = 1 := by omega
    subst this
    simp [List.countP_cons, hi, ho]

theorem balanced_append (wl wr : List Str) (op : Char) (hop : isOperator op = true)
    (hl : Balanced wl) (hr : Balanced wr) : Balanced (wl ++ wr ++ [[op]]) := by
  have hoI : isIntegerToken [op] = false := by
    simp [isIntegerToken, isOperator_not_isdigit op hop]
  have hoO : isOperatorToken [op] = true := by simpa [isOperatorToken] using hop
  obtain ⟨hlt, hlp⟩ := hl
  obtain ⟨hrt, hrp⟩ := hr
  constructor
  · simp only [List.countP_append, List.countP_cons, List.countP_nil, hoI, hoO, if_true]
    simp only [Bool.false_eq_true, if_false]
    omega
  · intro n hn hle
    simp only [List.length_append, List.length_singleton] at hle
    rw [List.append_assoc, List.take_append_eq_append_take, List.countP_append, List.countP_append]
    by_cases h1 : n ≤ wl.length
    · have h0 : n - wl.length = 0 := by omega
      rw [h0, List.take_zero]
      simp only [List.countP_nil, Nat.add_zero]
      exact hlp n hn h1
    · rw [List.take_of_length_le (by omega : wl.length ≤ n), List.take_append_eq_append_take,
        List.countP_append, List.countP_append]
      by_cases h2 : n - wl.length ≤ wr.length
      · have h0 : n - wl.length - wr.length = 0 := by omega
        rw [h0, List.take_zero]
        simp only [List.countP_nil, Nat.add_zero]
        have := hrp (n - wl.length) (by omega) h2
        omega
      · rw [List.take_of_length_le (by omega : wr.length ≤ n - wl.length),
          List.take_of_length_le (by simp; omega : [[op]].length ≤ n - wl.length - wr.length)]
        simp only [List.countP_cons, List.countP_nil, hoI, hoO, if_true, Bool.false_eq_true,
          if_false]
        omega

theorem generateCode_balanced :
    ∀ (e : ASTNode), pipelineTree e = true →
      ∃ code, e.generateCode = Except.ok code ∧ Balanced (words code) := by
  intro e
  induction e with
  | null => intro h; exact absurd h (by simp [pipelineTree])
  | Assignment x e _ => intro h; exact absurd h (by simp [pipelineTree])
  | Int v =>
    intro h
    have hv : 0 ≤ v := by simpa [pipelineTree] using h
    obtain ⟨hd, hne⟩ := to_string_digits v hv
    refine ⟨to_string v, rfl, ?_⟩
    rw [words_no_space _ (fun c hc => isdigit_ne_space c (hd c hc)) hne]
    exact balanced_single _ (isIntegerToken_digits _ hd hne).1 (isIntegerToken_digits _ hd hne).2
  | BinaryOp op l r ihl ihr =>
    intro h
    simp only [pipelineTree, Bool.and_eq_true] at h
    obtain ⟨⟨hop, hl⟩, hr⟩ := h
    obtain ⟨cl, hcl, hbl⟩ := ihl hl
    obtain ⟨cr, hcr, hbr⟩ := ihr hr
    have hsp : op ≠ ' ' := by rintro rfl; revert hop; decide
    refine ⟨cl ++ [' '] ++ cr ++ [' '] ++ [op], ?_, ?_⟩
    · simp [ASTNode.generateCode, hcl, hcr, bind, Except.bind, pure, Except.pure]
    · have e : cl ++ [' '] ++ cr ++ [' '] ++ [op] = cl ++ ' ' :: (cr ++ ' ' :: [op]) := by simp
      rw [e, words_append_space, words_append_space,
        words_no_space [op] (by simpa using hsp) (by simp), ← List.append_assoc]
      exact balanced_append _ _ op hop hbl hbr

/-- C16: for a tree of integer literals with non-negative values and binary operations with
operators among `+ - * /`, the token list of the lowering has exactly one more integer token
than operator tokens, and every non-empty initial part of it has more integer tokens than
operator tokens. -/
theorem lowering_balanced_arity (e : ASTNode) (he : pipelineTree e = true) :
    ∃ code, e.generateCode = Except.ok code ∧
      (words code).countP isIntegerToken = (words code).countP isOperatorToken + 1 ∧
      ∀ n, 0 < n → n ≤ (words code).length →
        ((words code).take n).countP isOperatorToken
          < ((words code).take n).countP isIntegerToken := by
  obtain ⟨code, hcode, hb⟩ := generateCode_balanced e he
  exact ⟨code, hcode, hb.1, hb.2⟩

/-- For `(1 + 2) * 3`, lowered to `1 2 + 3 *`. -/
theorem lowering_balanced_arity_witness :
    ∃ code, (ASTNode.BinaryOp '*' (ASTNode.BinaryOp '+' (ASTNode.Int 1) (ASTNode.Int 2))
        (ASTNode.Int 3)).generateCode = Except.ok code ∧
      (words code).countP isIntegerToken = (words code).countP isOperatorToken + 1 ∧
      ∀ n, 0 < n → n ≤ (words code).length →
        ((words code).take n).countP isOperatorToken
          < ((words code).take n).countP isIntegerToken :=
  lowering_balanced_arity _ rfl

/-- C23: for the text `x + 3` the text parser returns `BinaryOp('+', null, IntLiteral(3))`, a
non-null tree with a null left child, and `generateCode` on it reads through the null
pointer; for `+ 3` it returns null. -/
theorem parseTree_null_left_child :
    parseTree "x + 3".toList = Except.ok (ASTNode.BinaryOp '+' ASTNode.null (ASTNode.Int 3)) ∧
    (ASTNode.BinaryOp '+' ASTNode.null (ASTNode.Int 3)).generateCode
      = Except.error Fault.nullDeref ∧
    parseTree "+ 3".toList = Except.ok ASTNode.null := by
  exact ⟨rfl, rfl, rfl⟩

end ReversePolish

/-! ## Code generator: the assignment scenario -/

namespace Target

/-- C4: on the lowering `2 3 + x =` of `x = 2 + 3` the generator ends with the line
`mov result, x`: at `=` the stack top is the name `x`, which is taken as the value, and the
entry below it, `result`, as the target. -/
theorem convertToAssembly_scenario1 :
    convertToAssembly "2 3 + x =".toList
      = Except.ok "push 2\npush 3\nadd\nmov result, x\n".toList := by
  rfl

/-- C13: when `+`, `-`, `*` or `/` is met with `a` on top of the stack and `b` below it, the
scan goes on with the three lines `push b`, `push a` and `add`, `sub`, `mul` or `div` appended
and with the two entries replaced by `result`; `a b -` gives `push a`, `push b`, `sub`. -/
theorem scanLoop_operator (fuel : Nat) (rest : Str) (a b : Str) (stack : List Str)
    (assemblyCode : Str) :
    scanLoop (fuel + 1) ('+' :: rest) (a :: b :: stack) assemblyCode
      = scanLoop fuel rest ("result".toList :: stack)
          (assemblyCode ++ pushLine b ++ pushLine a ++ "add\n".toList) ∧
    scanLoop (fuel + 1) ('-' :: rest) (a :: b :: stack) assemblyCode
      = scanLoop fuel rest ("result".toList :: stack)
          (assemblyCode ++ pushLine b ++ pushLine a ++ "sub\n".toList) ∧
    scanLoop (fuel + 1) ('*' :: rest) (a :: b :: stack) assemblyCode
      = scanLoop fuel rest ("result".toList :: stack)
          (assemblyCode ++ pushLine b ++ pushLine a ++ "mul\n".toList) ∧
    scanLoop (fuel + 1) ('/' :: rest) (a :: b :: stack) assemblyCode
      = scanLoop fuel rest ("result".toList :: stack)
          (assemblyCode ++ pushLine b ++ pushLine a ++ "div\n".toList) ∧
    convertToAssembly "a b -".toList = Except.ok "push a\npush b\nsub\n".toList := by
  refine ⟨?_, ?_, ?_, ?_, rfl⟩ <;>
    simp [scanLoop, operatorStep, pop, pushLine, isdigit, isalpha, bind, Except.bind, pure,
      Except.pure]

/-- C14: when `=` is met with `value` on top of the stack and `target` below it, the scan goes
on with the line `mov <target>, <value>` appended and both entries removed, nothing pushed;
`x 1 =` gives `mov x, 1`. -/
theorem scanLoop_assignment (fuel : Nat) (rest : Str) (value target : Str) (stack : List Str)
    (assemblyCode : Str) :
    scanLoop (fuel + 1) ('=' :: rest) (value :: target :: stack) assemblyCode
      = scanLoop fuel rest stack
          (assemblyCode ++ ("mov ".toList ++ target ++ ", ".toList ++ value ++ ['\n'])) ∧
    convertToAssembly "x 1 =".toList = Except.ok "mov x, 1\n".toList := by
  refine ⟨?_, rfl⟩
  simp [scanLoop, pop]

theorem isdigit_ne_eq (d : Char) (h : isdigit d = true) : d ≠ '=' := by
  rintro rfl; revert h; decide

theorem scanLoop_digits :
    ∀ (ds : Str) (fuel : Nat) (stack : List Str) (assemblyCode : Str),
      (∀ d ∈ ds, isdigit d = true) → ds.length ≤ fuel →
      scanLoop fuel ds stack assemblyCode
        = Except.ok (ds.reverse.map (fun d => [d]) ++ stack, assemblyCode) := by
  intro ds
  induction ds with
  | nil =>
    intro fuel stack assemblyCode _ _
    cases fuel <;> simp [scanLoop]
  | cons d ds ih =>
    intro fuel stack assemblyCode hd hf
    simp only [List.length_cons] at hf
    obtain ⟨f, rfl⟩ : ∃ f, fuel = f + 1 := ⟨fuel - 1, by omega⟩
    have h1 : isdigit d = true := hd d (List.mem_cons_self _ _)
    rw [scanLoop]
    simp only [isdigit_ne_eq d h1, h1, if_true, if_false]
    rw [ih f _ _ (fun c hc => hd c (List.mem_cons_of_mem _ hc)) (by omega)]
    simp

theorem flushLoop_operands :
    ∀ (stack : List Str) (assemblyCode : Str), (∀ v ∈ stack, v ≠ "result".toList) →
      flushLoop stack assemblyCode = assemblyCode ++ (stack.map pushLine).flatten := by
  intro stack
  induction stack with
  | nil => intro assemblyCode _; simp [flushLoop]
  | cons v stack ih =>
    intro assemblyCode h
    have hv : v ≠ "result".toList := h v (List.mem_cons_self _ _)
    rw [flushLoop]
    simp only [ne_eq, hv, not_false_eq_true, if_true]
    rw [ih _ (fun w hw => h w (List.mem_cons_of_mem _ hw))]
    simp [pushLine]

/-- C17: a postfix that is one literal with digits `d1 ... dn` gives exactly the lines
`push dn`, ..., `push d1`: every digit is an operand of its own, flushed from the stack top
downward; and `12 3 +` gives `push 2`, `push 3`, `add`, `push 1`. -/
theorem convertToAssembly_digits (ds : Str) (hd : ∀ d ∈ ds, isdigit d = true) :
    convertToAssembly ds = Except.ok ((ds.reverse.map (fun d => pushLine [d])).flatten) ∧
    convertToAssembly "12 3 +".toList = Except.ok "push 2\npush 3\nadd\npush 1\n".toList := by
  refine ⟨?_, rfl⟩
  rw [convertToAssembly, scanLoop_digits ds ds.length [] [] hd (Nat.le_refl _)]
  simp only [List.append_nil]
  rw [flushLoop_operands]
  · simp [List.map_map, Function.comp_def]
  · intro v hv
    simp only [List.mem_map, List.mem_reverse] at hv
    obtain ⟨d, _, rfl⟩ := hv
    intro h
    have := congrArg List.length h
    simp at this

/-- The literal `123` gives `push 3`, `push 2`, `push 1`. -/
theorem convertToAssembly_digits_witness :
    convertToAssembly "123".toList = Except.ok "push 3\npush 2\npush 1\n".toList :=
  (convertToAssembly_digits "123".toList (by decide)).1

theorem scanLoop_op_step (op : Char) (hop : ReversePolish.isOperator op = true) (fuel : Nat)
    (rest : Str) (a b : Str) (stack : List Str) (assemblyCode : Str) :
    scanLoop (fuel + 1) (op :: rest) (a :: b :: stack) assemblyCode
      = scanLoop fuel rest ("result".toList :: stack)
          (assemblyCode ++ (pushLine b ++ pushLine a ++ (mnemonic op ++ ['\n']))) := by
  simp only [ReversePolish.isOperator, Bool.or_eq_true, decide_eq_true_eq] at hop
  rcases hop with ((rfl | rfl) | rfl) | rfl <;>
    simp [scanLoop, operatorStep, pop, pushLine, mnemonic, isdigit, isalpha, bind, Except.bind,
      pure, Except.pure]

theorem scanLoop_space (fuel : Nat) (rest : Str) (stack : List Str) (assemblyCode : Str) :
    scanLoop (fuel + 1) (' ' :: rest) stack assemblyCode = scanLoop fuel rest stack assemblyCode := by
  simp [scanLoop, isdigit, isalpha]

theorem scanLoop_digits_append :
    ∀ (ds : Str) (fuel : Nat) (rest : Str) (stack : List Str) (assemblyCode : Str),
      (∀ d ∈ ds, isdigit d = true) →
      scanLoop (fuel + ds.length) (ds ++ rest) stack assemblyCode
        = scanLoop fuel rest (ds.reverse.map (fun d => [d]) ++ stack) assemblyCode := by
  intro ds
  induction ds with
  | nil => intro fuel rest stack assemblyCode _; rfl
  | cons d ds ih =>
    intro fuel rest stack assemblyCode hd
    have h1 : isdigit d = true := hd d (List.mem_cons_self _ _)
    show scanLoop (fuel + ds.length + 1) (d :: (ds ++ rest)) stack assemblyCode = _
    rw [scanLoop]
    simp only [isdigit_ne_eq d h1, h1, if_true, if_false]
    rw [ih fuel rest _ _ (fun c hc => hd c (List.mem_cons_of_mem _ hc))]
    simp

theorem two_of_append {p q : List Str} (hp : p ≠ []) (hq : q ≠ []) :
    ∃ a b tl, p ++ q = a :: b :: tl := by
  cases p with
  | nil => exact absurd rfl hp
  | cons a p =>
    cases p with
    | nil =>
      cases q with
      | nil => exact absurd rfl hq
      | cons b q => exact ⟨a, b, q, rfl⟩
    | cons b p => exact ⟨a, b, p ++ q, rfl⟩

theorem scanLoop_tree :
    ∀ (e : ReversePolish.ASTNode), ReversePolish.pipelineTree e = true →
      ∃ (code : Str) (pushed : List Str) (out : Str),
        e.generateCode = Except.ok code ∧ pushed ≠ [] ∧
        ∀ (fuel : Nat) (rest : Str) (stack : List Str) (assemblyCode : Str),
          scanLoop (fuel + code.length) (code ++ rest) stack assemblyCode
            = scanLoop fuel rest (pushed ++ stack) (assemblyCode ++ out) := by
  intro e
  induction e with
  | null => intro h; exact absurd h (by simp [ReversePolish.pipelineTree])
  | Assignment x e _ => intro h; exact absurd h (by simp [ReversePolish.pipelineTree])
  | Int v =>
    intro h
    have hv : 0 ≤ v := by simpa [ReversePolish.pipelineTree] using h
    obtain ⟨hd, hne⟩ := ReversePolish.to_string_digits v hv
    refine ⟨to_string v, (to_string v).reverse.map (fun d => [d]), [], rfl, ?_, ?_⟩
    · simpa using hne
    · intro fuel rest stack assemblyCode
      rw [scanLoop_digits_append _ fuel rest stack assemblyCode hd, List.append_nil]
  | BinaryOp op l r ihl ihr =>
    intro h
    simp only [ReversePolish.pipelineTree, Bool.and_eq_true] at h
    obtain ⟨⟨hop, hl⟩, hr⟩ := h
    obtain ⟨cl, pl, ol, hcl, hpl, hsl⟩ := ihl hl
    obtain ⟨cr, pr, or_, hcr, hpr, hsr⟩ := ihr hr
    obtain ⟨a, b, tl, hab⟩ := two_of_append hpr hpl
    refine ⟨cl ++ [' '] ++ cr ++ [' '] ++ [op], "result".toList :: tl,
      ol ++ or_ ++ (pushLine b ++ pushLine a ++ (mnemonic op ++ ['\n'])), ?_, by simp, ?_⟩
    · simp [ReversePolish.ASTNode.generateCode, hcl, hcr, bind, Except.bind, pure, Except.pure]
    · intro fuel rest stack assemblyCode
      have e1 : cl ++ [' '] ++ cr ++ [' '] ++ [op] ++ rest
          = cl ++ (' ' :: (cr ++ (' ' :: op :: rest))) := by simp
      have e2 : fuel + (cl ++ [' '] ++ cr ++ [' '] ++ [op]).length
          = (fuel + 1 + 1 + cr.length + 1) + cl.length := by
        simp only [List.length_append, List.length_singleton]; omega
      rw [e1, e2, hsl, scanLoop_space, hsr, scanLoop_space, ← List.append_assoc, hab,
        List.cons_append, List.cons_append, scanLoop_op_step op hop]
      simp [List.append_assoc]

theorem takeWhile_isalnum_name (cs r : Str)
    (h : cs.all (fun d => Latexanaly.isLetter d || Latexanaly.isDigit d) = true) :
    (cs ++ ' ' :: r).takeWhile isalnum = cs ∧ (cs ++ ' ' :: r).dropWhile isalnum = ' ' :: r := by
  induction cs with
  | nil =>
    have : isalnum ' ' = false := by decide
    simp [List.takeWhile, List.dropWhile, this]
  | cons c cs ih =>
    simp only [List.all_cons, Bool.and_eq_true] at h
    have hc : isalnum c = true := h.1
    simp only [List.cons_append, List.takeWhile_cons, List.dropWhile_cons, hc, if_true, ih h.2,
      and_self]

theorem isalpha_facts (c : Char) (h : isalpha c = true) : c ≠ '=' ∧ isdigit c = false := by
  constructor
  · rintro rfl; revert h; decide
  · by_contra hd
    simp only [Bool.not_eq_false] at hd
    have := Latexanaly.isDigit_not_isLetter c hd
    simp only [Latexanaly.isLetter] at this
    rw [this] at h
    exact Bool.noConfusion h

theorem convertToAssembly_tree_ok (e : ReversePolish.ASTNode)
    (he : ReversePolish.pipelineTree e = true) :
    ∃ code assemblyCode, e.generateCode = Except.ok code ∧
      convertToAssembly code = Except.ok assemblyCode := by
  obtain ⟨code, pushed, out, hcode, hpushed, hscan⟩ := scanLoop_tree e he
  refine ⟨code, flushLoop pushed out, hcode, ?_⟩
  have h := hscan 0 [] [] []
  simp only [Nat.zero_add, List.append_nil, List.nil_append] at h
  simp only [convertToAssembly, h, scanLoop]

theorem convertToAssembly_assignment_ok (e : ReversePolish.ASTNode) (x : Str)
    (he : ReversePolish.pipelineTree e = true) (hx : Latexanaly.isIdentifierText x = true) :
    ∃ code assemblyCode, (ReversePolish.ASTNode.Assignment x e).generateCode = Except.ok code ∧
      convertToAssembly code = Except.ok assemblyCode := by
  obtain ⟨code, pushed, out, hcode, hpushed, hscan⟩ := scanLoop_tree e he
  cases x with
  | nil => exact absurd hx (by simp [Latexanaly.isIdentifierText])
  | cons c cs =>
    simp only [Latexanaly.isIdentifierText, Bool.and_eq_true] at hx
    obtain ⟨hc, hcs⟩ := hx
    obtain ⟨hne, hnd⟩ := isalpha_facts c hc
    obtain ⟨htake, hdrop⟩ := takeWhile_isalnum_name cs ['='] hcs
    cases pushed with
    | nil => exact absurd rfl hpushed
    | cons p ps =>
      have hgen : (ReversePolish.ASTNode.Assignment (c :: cs) e).generateCode
          = Except.ok (code ++ [' '] ++ (c :: cs) ++ " =".toList) := by
        simp [ReversePolish.ASTNode.generateCode, hcode, bind, Except.bind, pure, Except.pure]
      refine ⟨_, flushLoop ps (out ++ ("mov ".toList ++ p ++ ", ".toList ++ (c :: cs) ++ ['\n'])),
        hgen, ?_⟩
      have e1 : code ++ [' '] ++ (c :: cs) ++ " =".toList
          = code ++ (' ' :: c :: (cs ++ ' ' :: ['='])) := by
        simp
      have e2 : (code ++ [' '] ++ (c :: cs) ++ " =".toList).length
          = (cs.length + 1 + 1 + 1 + 1) + code.length := by
        have h2 : " =".toList.length = 2 := rfl
        simp only [List.length_append, List.length_singleton, List.length_cons, List.length_nil,
          h2]
        omega
      rw [convertToAssembly, e1, ← e1, e2, e1, hscan, scanLoop_space]
      rw [scanLoop]
      simp only [hne, hnd, show isalpha c = true from hc, if_true, if_false, htake, hdrop,
        Bool.false_eq_true]
      rw [scanLoop_space]
      simp [scanLoop, pop]

/-- C15: for a tree `e` of integer literals with non-negative values and binary operations
with operators among `+ - * /`, and a name `x` (a letter followed by letters and digits),
`convertToAssembly` returns on the lowering of `e` and on the lowering of
`Assignment(x, e)`: it meets no empty operand stack. -/
theorem convertToAssembly_no_underflow (e : ReversePolish.ASTNode) (x : Str)
    (he : ReversePolish.pipelineTree e = true) (hx : Latexanaly.isIdentifierText x = true) :
    (∃ code assemblyCode, e.generateCode = Except.ok code ∧
      convertToAssembly code = Except.ok assemblyCode) ∧
    (∃ code assemblyCode, (ReversePolish.ASTNode.Assignment x e).generateCode = Except.ok code ∧
      convertToAssembly code = Except.ok assemblyCode) :=
  ⟨convertToAssembly_tree_ok e he, convertToAssembly_assignment_ok e x he hx⟩

/-- For `e = (1 + 2) * 3` and `x = x1`: both lowerings are converted without underflow. -/
theorem convertToAssembly_no_underflow_witness :
    (∃ code assemblyCode,
      (ReversePolish.ASTNode.BinaryOp '*' (ReversePolish.ASTNode.BinaryOp '+'
        (ReversePolish.ASTNode.Int 1) (ReversePolish.ASTNode.Int 2))
        (ReversePolish.ASTNode.Int 3)).generateCode = Except.ok code ∧
      convertToAssembly code = Except.ok assemblyCode) ∧
    (∃ code assemblyCode,
      (ReversePolish.ASTNode.Assignment "x1".toList (ReversePolish.ASTNode.BinaryOp '*'
        (ReversePolish.ASTNode.BinaryOp '+' (ReversePolish.ASTNode.Int 1)
          (ReversePolish.ASTNode.Int 2))
        (ReversePolish.ASTNode.Int 3))).generateCode = Except.ok code ∧
      convertToAssembly code = Except.ok assemblyCode) :=
  convertToAssembly_no_underflow _ "x1".toList rfl rfl

/-- C22 (as stated, at concrete inputs): the literal `-5` lowers to `-5`, on which
`convertToAssembly` meets `-` with an empty stack; and
`BinaryOp('+', Assignment("x", IntLiteral(1)), IntLiteral(2))` lowers to `1 x = 2 +`, on
which `+` finds one operand only. -/
theorem convertToAssembly_underflow :
    (ReversePolish.ASTNode.Int (-5)).generateCode = Except.ok "-5".toList ∧
    convertToAssembly "-5".toList = Except.error Fault.stackUnderflow ∧
    (ReversePolish.ASTNode.BinaryOp '+'
        (ReversePolish.ASTNode.Assignment "x".toList (ReversePolish.ASTNode.Int 1))
        (ReversePolish.ASTNode.Int 2)).generateCode = Except.ok "1 x = 2 +".toList ∧
    convertToAssembly "1 x = 2 +".toList = Except.error Fault.stackUnderflow := by
  exact ⟨rfl, rfl, rfl, rfl⟩

/-- C22 (amended): for a tree of integer literals with non-negative values and binary
operations with operators among `+ - * /`, taken alone or as the value of one assignment to a
name at the root, `convertToAssembly` returns on the tree's lowering: it meets no empty
operand stack. -/
theorem convertToAssembly_statement_no_underflow (t : ReversePolish.ASTNode)
    (ht : ReversePolish.statementTree t = true) :
    ∃ code assemblyCode, t.generateCode = Except.ok code ∧
      convertToAssembly code = Except.ok assemblyCode := by
  cases t with
  | null => exact absurd ht (by simp [ReversePolish.statementTree])
  | Int v => exact convertToAssembly_tree_ok _ ht
  | BinaryOp op l r => exact convertToAssembly_tree_ok _ ht
  | Assignment x e =>
    simp only [ReversePolish.statementTree, Bool.and_eq_true] at ht
    exact convertToAssembly_assignment_ok e x ht.2 ht.1

/-- For `y2 = 10 / (2 - 1)`: the lowering `10 2 1 - / y2 =` is converted without underflow. -/
theorem convertToAssembly_statement_no_underflow_witness :
    ∃ code assemblyCode,
      (ReversePolish.ASTNode.Assignment "y2".toList (ReversePolish.ASTNode.BinaryOp '/'
        (ReversePolish.ASTNode.Int 10)
        (ReversePolish.ASTNode.BinaryOp '-' (ReversePolish.ASTNode.Int 2)
          (ReversePolish.ASTNode.Int 1)))).generateCode = Except.ok code ∧
      convertToAssembly code = Except.ok assemblyCode :=
  convertToAssembly_statement_no_underflow _ rfl

end Target

/-! ## Hand-off of the printed tree to the lowering stage -/

/-- C5: the parser turns the tokens of `x = 2 + 3` into
`Assignment("x", BinaryOp('+', 2, 3))` and prints it as `x = 2 + 3`; the lowering stage's
`parseExpression` returns a null pointer for that text (its `parseTerm` has no branch for a
name). -/
theorem printed_assignment_rejected :
    Pareranaly.parse
        [⟨Pareranaly.TokenType.Identifier, "x".toList⟩, ⟨Pareranaly.TokenType.Operator, "=".toList⟩,
         ⟨Pareranaly.TokenType.Integer, "2".toList⟩, ⟨Pareranaly.TokenType.Operator, "+".toList⟩,
         ⟨Pareranaly.TokenType.Integer, "3".toList⟩]
      = Except.ok (Pareranaly.ExprNode.Assignment "x".toList
          (Pareranaly.ExprNode.BinaryOp '+' (Pareranaly.ExprNode.Int 2) (Pareranaly.ExprNode.Int 3))) ∧
    (Pareranaly.ExprNode.Assignment "x".toList
        (Pareranaly.ExprNode.BinaryOp '+' (Pareranaly.ExprNode.Int 2) (Pareranaly.ExprNode.Int 3))).print
      = Except.ok "x = 2 + 3".toList ∧
    ReversePolish.parseTree "x = 2 + 3".toList = Except.ok ReversePolish.ASTNode.null := by
  refine ⟨rfl, rfl, rfl⟩

end Compiler
